import Mathlib

/-! # Skill-bundle validation and packaging (`scripts/validate.js`, `scripts/build.js`)

A shallow embedding of the two scripts.

* JavaScript strings are lists of characters (`Str`).  The regular expressions of the
  scripts only distinguish the four ECMAScript line terminators and the `\s` class, all of
  which are single UTF-16 code units, so working with code points instead of code units
  does not change any match.
* The three regular-expression literals of the scripts are kept as syntax (`Node` lists) and
  run by a backtracking matcher that follows the ECMAScript matching rules for the
  constructs that occur in them.
* The file system is explicit state (`Fs`); a thrown exception is the result `none`.
* Console output is not modelled, apart from the list of bundles that `validateSkill` was
  called on.
-/

namespace SkillPkg

/-! ## Strings and ECMAScript character classes -/

/-- A JavaScript string. -/
abbrev Str := List Char

/-- ECMAScript `LineTerminator`: LF, CR, U+2028, U+2029. -/
def isLineTerminator (c : Char) : Bool :=
  c.toNat == 0x0A || c.toNat == 0x0D || c.toNat == 0x2028 || c.toNat == 0x2029

/-- The class `\s`, which is also what `String.prototype.trim` strips:
ECMAScript `WhiteSpace` together with `LineTerminator`. -/
def isWhiteSpace (c : Char) : Bool :=
  c.toNat == 0x09 || c.toNat == 0x0B || c.toNat == 0x0C || c.toNat == 0x20 ||
  c.toNat == 0xA0 || c.toNat == 0x1680 || (0x2000 ≤ c.toNat && c.toNat ≤ 0x200A) ||
  c.toNat == 0x202F || c.toNat == 0x205F || c.toNat == 0x3000 || c.toNat == 0xFEFF ||
  isLineTerminator c

/-- The method `String.prototype.trim`. -/
def trim (s : Str) : Str :=
  ((s.dropWhile isWhiteSpace).reverse.dropWhile isWhiteSpace).reverse

/-! ## Regular expressions: syntax and backtracking matcher -/

/-- A one-character matcher. -/
inductive Atom where
  /-- a literal character -/
  | lit (c : Char)
  /-- the class `[\s\S]` -/
  | any
  /-- the class `\s` -/
  | space
  /-- the dot `.` (no `s` flag) -/
  | dot
  deriving DecidableEq

/-- Does the atom accept this character? -/
def Atom.test : Atom → Char → Bool
  | .lit c, x => x == c
  | .any, _ => true
  | .space, x => isWhiteSpace x
  | .dot, x => !isLineTerminator x

/-- The pattern items that occur in the scripts; a pattern is a list of them. -/
inductive Node where
  /-- the assertion `^` -/
  | bol
  /-- the assertion `$` -/
  | eol
  /-- one character -/
  | one (a : Atom)
  /-- the loop `a*` (greedy) or `a*?` (lazy) -/
  | star (a : Atom) (greedy : Bool)
  /-- the loop `a+` (greedy) or `a+?` (lazy) -/
  | plus (a : Atom) (greedy : Bool)
  /-- the opening of capture group 1 -/
  | groupOpen
  /-- the closing of capture group 1 -/
  | groupClose
  deriving DecidableEq

/-- The items of a literal string. -/
def lits (s : String) : List Node := s.toList.map fun c => Node.one (Atom.lit c)

/-- A matcher state: the character before the current position (`none` at the start of the
input), the input from the current position on, whether group 1 is open, and the text
captured by group 1 so far. -/
structure MState where
  prev : Option Char
  rest : Str
  inGroup : Bool
  cap : Str
  deriving DecidableEq

/-- Consume the character `c`, leaving `cs`. -/
def MState.step (s : MState) (c : Char) (cs : Str) : MState :=
  { prev := some c, rest := cs, inGroup := s.inGroup,
    cap := if s.inGroup then s.cap ++ [c] else s.cap }

/-- Backtracking choice: the first alternative that succeeds. -/
def firstOf {α : Type} (a b : Option α) : Option α :=
  match a with
  | some r => some r
  | none => b

/-- The loop of `a*` / `a*?` followed by the continuation `k`.  A greedy loop first tries one
more character and falls back to the continuation; a lazy loop does the opposite. -/
def loop (a : Atom) (greedy : Bool) (k : MState → Option MState) (inGroup : Bool) :
    Option Char → Str → Str → Option MState
  | prev, cap, [] => k ⟨prev, [], inGroup, cap⟩
  | prev, cap, c :: cs =>
    let here := k ⟨prev, c :: cs, inGroup, cap⟩
    let more := if a.test c then loop a greedy k inGroup (some c) (if inGroup then cap ++ [c] else cap) cs
      else none
    if greedy then firstOf more here else firstOf here more

/-- Is the position a line start for `^`? -/
def atLineStart (multiline : Bool) (prev : Option Char) : Bool :=
  match prev with
  | none => true
  | some c => multiline && isLineTerminator c

/-- Is the position a line end for `$`? -/
def atLineEnd (multiline : Bool) (rest : Str) : Bool :=
  match rest with
  | [] => true
  | c :: _ => multiline && isLineTerminator c

/-- Match the pattern at the current position; `multiline` is the `m` flag. -/
def run (multiline : Bool) : List Node → MState → Option MState
  | [], s => some s
  | .bol :: ns, s => if atLineStart multiline s.prev then run multiline ns s else none
  | .eol :: ns, s => if atLineEnd multiline s.rest then run multiline ns s else none
  | .one a :: ns, s =>
    match s.rest with
    | c :: cs => if a.test c then run multiline ns (s.step c cs) else none
    | [] => none
  | .star a g :: ns, s => loop a g (fun t => run multiline ns t) s.inGroup s.prev s.cap s.rest
  | .plus a g :: ns, s =>
    match s.rest with
    | c :: cs =>
      if a.test c then
        loop a g (fun t => run multiline ns t) s.inGroup (some c) (s.step c cs).cap cs
      else none
    | [] => none
  | .groupOpen :: ns, s => run multiline ns { s with inGroup := true, cap := [] }
  | .groupClose :: ns, s => run multiline ns { s with inGroup := false }

/-- Try the pattern at every start position, left to right (no `g` or `y` flag). -/
def execFrom (multiline : Bool) (re : List Node) : Option Char → Str → Option MState
  | prev, [] => run multiline re ⟨prev, [], false, []⟩
  | prev, c :: cs =>
    firstOf (run multiline re ⟨prev, c :: cs, false, []⟩) (execFrom multiline re (some c) cs)

/-- The call `input.match(re)` for a pattern without the `g` flag: group 1 of the leftmost match, or
`none` for `null`. -/
def exec1 (multiline : Bool) (re : List Node) (input : Str) : Option Str :=
  (execFrom multiline re none input).map MState.cap

/-- The call `re.test(input)`. -/
def test (multiline : Bool) (re : List Node) (input : Str) : Bool :=
  (execFrom multiline re none input).isSome

/-! ## The patterns of the scripts -/

/-- The pattern `^---\n([\s\S]*?)\n---` without flags (validate.js line 9, build.js line 26). -/
def frontmatterRe : List Node :=
  [.bol] ++ lits "---\n" ++ [.groupOpen, .star .any false, .groupClose] ++ lits "\n---"

/-- The patterns `^name:\s*.+$` and `^description:\s*.+$` with the `m` flag
(validate.js lines 15 and 16). -/
def hasKeyRe (key : String) : List Node :=
  [.bol] ++ lits key ++ lits ":" ++ [.star .space true, .plus .dot true, .eol]

/-- The patterns `^name:\s*(.+)$` and `^description:\s*(.+)$` with the `m` flag
(build.js lines 31 and 32). -/
def keyValueRe (key : String) : List Node :=
  [.bol] ++ lits key ++ lits ":" ++
    [.star .space true, .groupOpen, .plus .dot true, .groupClose, .eol]

/-! ## validate.js: `validateFrontmatter` -/

/-- The result object of `validateFrontmatter`: `{ valid: true }` or
`{ valid: false, error }`. -/
inductive Verdict where
  /-- the object `{ valid: true }` -/
  | valid
  /-- the object `{ valid: false, error: 'Missing YAML frontmatter' }` -/
  | missingFrontmatter
  /-- the object `{ valid: false, error: 'Missing "name" in frontmatter' }` -/
  | missingName
  /-- the object `{ valid: false, error: 'Missing "description" in frontmatter' }` -/
  | missingDescription
  deriving DecidableEq

/-- The header block: `content.match(frontmatterRe)` followed by `[1]`, or `none` when the
match is `null`. -/
def frontmatterOf (content : Str) : Option Str :=
  exec1 false frontmatterRe content

/-- The function `validateFrontmatter(content)` (validate.js lines 8-26). -/
def validateFrontmatter (content : Str) : Verdict :=
  match frontmatterOf content with
  | none => .missingFrontmatter
  | some frontmatter =>
    let hasName := test true (hasKeyRe "name") frontmatter
    let hasDescription := test true (hasKeyRe "description") frontmatter
    if !hasName then .missingName
    else if !hasDescription then .missingDescription
    else .valid

/-! ## build.js: the text part of `getSkillMetadata` -/

/-- The object returned by `getSkillMetadata`: `{}` when no header was found, otherwise
`{ name, description }`, where either property may be `undefined` (`none`). -/
inductive Metadata where
  /-- the object `{}` -/
  | empty
  /-- the object `{ name, description }` -/
  | fields (name description : Option Str)
  deriving DecidableEq

/-- The property `metadata.name`. -/
def Metadata.name : Metadata → Option Str
  | .empty => none
  | .fields n _ => n

/-- The property `metadata.description`. -/
def Metadata.description : Metadata → Option Str
  | .empty => none
  | .fields _ d => d

/-- The expression `frontmatter.match(keyValueRe)?.[1]?.trim()`. -/
def keyValue (key : String) (frontmatter : Str) : Option Str :=
  (exec1 true (keyValueRe key) frontmatter).map trim

/-- The property `metadata[key]` for the two keys the object can hold. -/
def Metadata.get (m : Metadata) (key : String) : Option Str :=
  if key = "name" then m.name else if key = "description" then m.description else none

/-- Lines 26-34 of `getSkillMetadata`, on the text read from `SKILL.md`. -/
def metadataOfContent (content : Str) : Metadata :=
  match frontmatterOf content with
  | none => .empty
  | some frontmatter => .fields (keyValue "name" frontmatter) (keyValue "description" frontmatter)

/-! ## Pattern-free descriptions of the three matches

The theorems `frontmatterOf_eq`, `keyValue_eq` and `test_hasKeyRe` show that the matcher
computes these scans on the patterns of the scripts. -/

/-- The closing marker of the header pattern, as characters. -/
def closeMarker : Str := ['\n', '-', '-', '-']

/-- The opening marker of the header pattern, as characters. -/
def openMarker : Str := ['-', '-', '-', '\n']

/-- Scan for the first closing marker: the text before it (appended to `acc`) and the text
after it. -/
def findClose : Str → Str → Option (Str × Str)
  | _, [] => none
  | acc, c :: cs =>
    if closeMarker <+: c :: cs then some (acc, (c :: cs).drop 4) else findClose (acc ++ [c]) cs

/-- The character before the position reached after reading `l` from a position whose
previous character was `p`. -/
def lastOr (p : Option Char) : Str → Option Char
  | [] => p
  | c :: cs => lastOr (some c) cs

/-- The items of a literal list of characters. -/
def litNodes (l : Str) : List Node := l.map fun c => Node.one (Atom.lit c)

/-- The characters of a line up to its line terminator. -/
def lineHead (r : Str) : Str := r.takeWhile fun c => !isLineTerminator c

/-- What `(.+)$` captures at a position: the rest of the line, which has to be non-empty. -/
def valueAt : Str → Option Str
  | [] => none
  | c :: cs => if isLineTerminator c then none else some (c :: lineHead cs)

/-- What `\s*(.+)$` captures at a position: the greedy `\s*` takes as much white space as
it can, line terminators included, and gives characters back only when `(.+)$` fails. -/
def valueOf : Str → Option Str
  | [] => none
  | c :: cs => if isWhiteSpace c then firstOf (valueOf cs) (valueAt (c :: cs)) else valueAt (c :: cs)

/-- The key pattern tried at one position. -/
def keyAt (kc : Str) (prev : Option Char) (r : Str) : Option Str :=
  if atLineStart true prev ∧ kc <+: r then valueOf (r.drop kc.length) else none

/-- The key pattern tried at every position, left to right. -/
def keyExec (kc : Str) : Option Char → Str → Option Str
  | prev, [] => keyAt kc prev []
  | prev, c :: cs => firstOf (keyAt kc prev (c :: cs)) (keyExec kc (some c) cs)

/-- The characters `key:` that both key patterns start with. -/
def keyChars (key : String) : Str := key.toList ++ [':']

/-! ## Lines, and the statements of the claims on descriptor texts -/

/-- The lines of a text, split at the ECMAScript line terminators, as `^` and `$` see them
under the `m` flag. -/
def jsLines : Str → List Str
  | [] => [[]]
  | c :: cs =>
    if isLineTerminator c then [] :: jsLines cs
    else
      match jsLines cs with
      | l :: ls => (c :: l) :: ls
      | [] => [[c]]

/-- The lines that start at or after a position whose previous character is `prev`. -/
def linesFrom (prev : Option Char) (r : Str) : List Str :=
  if atLineStart true prev then jsLines r else (jsLines r).tail

/-- A character of an identifier: an ASCII letter, a digit or `_`. -/
def isIdentChar (c : Char) : Bool :=
  (48 ≤ c.toNat && c.toNat ≤ 57) || (65 ≤ c.toNat && c.toNat ≤ 90) ||
    (97 ≤ c.toNat && c.toNat ≤ 122) || c.toNat == 95

/-- An identifier: identifier characters, at least one, the first not a digit. -/
def isIdentifier : Str → Bool
  | [] => false
  | c :: cs => isIdentChar c && !(48 ≤ c.toNat && c.toNat ≤ 57) && cs.all isIdentChar

/-- The descriptor text whose header body is the given lines, joined by newlines, between
the opening marker line and the closing marker, followed by `rest`. -/
def descriptor (lines : List Str) (rest : Str) : Str :=
  "---\n".toList ++ ['\n'].intercalate lines ++ "\n---".toList ++ rest

/-- Does the header have a line that begins with `key:` and whose remainder on that same
line is non-empty after trimming? -/
def hasNonBlankLine (key : String) (fm : Str) : Bool :=
  (jsLines fm).any fun l =>
    decide (keyChars key <+: l) && !(trim (l.drop (keyChars key).length)).isEmpty

/-- The statement of C7 for one text and one key: the value is the trimmed remainder of the
first header line that begins with `key:`, and it is absent when there is no such line. -/
def FirstLineValue (content : Str) (key : String) : Prop :=
  ∀ fm, frontmatterOf content = some fm →
    (metadataOfContent content).get key =
      ((jsLines fm).find? fun l => decide (keyChars key <+: l)).map
        fun l => trim (l.drop (keyChars key).length)

/-- The statement of C10 for one text: the first line is exactly `---` and some later line
is exactly `---`. -/
def ClosedByMarkerLine (content : Str) : Prop :=
  (jsLines content).head? = some "---".toList ∧ "---".toList ∈ (jsLines content).tail

/-! ## The file system -/

/-- An entry of the file system: a regular file with its text, or a directory with its
entries in listing order.  The names in a directory are distinct, as in any file system, so
reading an entry through its name gives the entry itself. -/
inductive FsNode where
  /-- a regular file -/
  | file (content : Str)
  /-- a directory -/
  | dir (entries : List (Str × FsNode))

instance : Inhabited FsNode := ⟨FsNode.file []⟩

/-- The call `stat.isDirectory()`. -/
def FsNode.isDirectory : FsNode → Bool
  | .dir _ => true
  | .file _ => false

/-- The entries of a directory; a file has none. -/
def FsNode.entries : FsNode → List (Str × FsNode)
  | .dir es => es
  | .file _ => []

/-- The entry called `name` in a list of directory entries. -/
def lookupEntry (name : Str) : List (Str × FsNode) → Option FsNode
  | [] => none
  | (n, e) :: es => if n = name then some e else lookupEntry name es

/-- Put `e` under `name`: in place of the entry of that name, or as a new last entry. -/
def setEntry (name : Str) (e : FsNode) : List (Str × FsNode) → List (Str × FsNode)
  | [] => [(name, e)]
  | (n, x) :: es => if n = name then (n, e) :: es else (n, x) :: setEntry name e es

/-- The state the scripts work on: what is at `ROOT_DIR/skills` and at `ROOT_DIR/dist`
(`none` when the path does not exist). -/
structure Fs where
  skills : Option FsNode
  dist : Option FsNode

/-- The call `fs.existsSync(path)`, on what is at the path. -/
def existsSync (entry : Option FsNode) : Bool := entry.isSome

/-- The call `fs.readFileSync(path, 'utf-8')`; `none` when it throws (no such file, or a
directory). -/
def readFileSync : Option FsNode → Option Str
  | some (.file c) => some c
  | _ => none

/-- The call `fs.readdirSync(path)`; `none` when it throws (no such directory, or a file). -/
def readdirSync : Option FsNode → Option (List Str)
  | some (.dir es) => some (es.map Prod.fst)
  | _ => none

/-- The call `fs.mkdirSync(path, { recursive: true })` below an existing parent: what is at
the path afterwards; `none` when it throws (a file is in the way). -/
def mkdirSync : Option FsNode → Option FsNode
  | none => some (.dir [])
  | some (.dir es) => some (.dir es)
  | some (.file _) => none

/-- The call `fs.writeFileSync(path, data)` below an existing parent: what is at the path
afterwards; `none` when it throws (a directory is in the way). -/
def writeFileSync (entry : Option FsNode) (data : Str) : Option FsNode :=
  match entry with
  | some (.dir _) => none
  | _ => some (.file data)

/-- The immediate subdirectories of `SKILLS_DIR`, in listing order: the entries that pass
`fs.statSync(...).isDirectory()`. -/
def bundleDirs (fs : Fs) : List (Str × FsNode) :=
  match fs.skills with
  | some node => node.entries.filter fun e => e.2.isDirectory
  | none => []

/-! ## validate.js: `validateSkill` and `main` -/

namespace Validate

/-- The function `validateSkill(skillPath)` (lines 28-65), on the directory at `skillPath`;
`none` when a file-system call throws. -/
def validateSkill (skill : FsNode) : Option Bool :=
  let skillMd := lookupEntry "SKILL.md".toList skill.entries
  if !existsSync skillMd then some false
  else
    match readFileSync skillMd with
    | none => none
    | some content =>
      if validateFrontmatter content ≠ Verdict.valid then some false
      else
        let references := lookupEntry "references".toList skill.entries
        match (if existsSync references then readdirSync references else some []) with
        | none => none
        | some _ =>
          let scripts := lookupEntry "scripts".toList skill.entries
          match (if existsSync scripts then readdirSync scripts else some []) with
          | none => none
          | some _ => some true

/-- How a run of validate.js ends: the exit code, and the bundles on which `validateSkill`
was called, in order. -/
structure Outcome where
  exitCode : Nat
  validated : List Str

/-- The `for` loop of `main` (lines 86-99) with the final exit; an exception that
`validateSkill` throws is not caught and ends the process with exit code 1. -/
def validateLoop : List (Str × FsNode) → Bool → List Str → Outcome
  | [], allValid, seen => ⟨if allValid then 0 else 1, seen⟩
  | (n, e) :: rest, allValid, seen =>
    match validateSkill e with
    | none => ⟨1, seen ++ [n]⟩
    | some isValid => validateLoop rest (if !isValid then false else allValid) (seen ++ [n])

/-- The function `main()` of validate.js (lines 67-100). -/
def main (fs : Fs) : Outcome :=
  if !existsSync fs.skills then ⟨1, []⟩
  else
    match readdirSync fs.skills with
    | none => ⟨1, []⟩
    | some _ =>
      let skills := bundleDirs fs
      if skills.length = 0 then ⟨1, []⟩
      else validateLoop skills true []

end Validate

/-! ## build.js: `copyRecursive`, `getSkillMetadata` and `main` -/

namespace Build

mutual
/-- The function `copyRecursive(src, dest)` (lines 11-21): from the entry at `src` and what
is at `dest`, what is at `dest` afterwards; `none` when a file-system call throws. -/
def copyRecursive : FsNode → Option FsNode → Option FsNode
  | .file c, none => some (.file c)
  | .file c, some (.file _) => some (.file c)
  | .file _, some (.dir _) => none
  | .dir es, none => (copyEntries es []).map FsNode.dir
  | .dir es, some (.dir ds) => (copyEntries es ds).map FsNode.dir
  | .dir _, some (.file _) => none
/-- The loop over `fs.readdirSync(src)` in `copyRecursive`. -/
def copyEntries : List (Str × FsNode) → List (Str × FsNode) → Option (List (Str × FsNode))
  | [], ds => some ds
  | (n, e) :: es, ds =>
    match copyRecursive e (lookupEntry n ds) with
    | none => none
    | some d => copyEntries es (setEntry n d ds)
end

/-- The function `getSkillMetadata(skillPath)` (lines 23-35), on the directory at
`skillPath`; `none` when `readFileSync` throws. -/
def getSkillMetadata (skill : FsNode) : Option Metadata :=
  match readFileSync (lookupEntry "SKILL.md".toList skill.entries) with
  | none => none
  | some content => some (metadataOfContent content)

/-- An entry of the `skills` array of the manifest. -/
structure SkillEntry where
  name : Str
  description : Str
  path : Str
  deriving DecidableEq

/-- The manifest object. -/
structure Manifest where
  name : Str
  version : Str
  skills : List SkillEntry
  deriving DecidableEq

/-- The expression `value || fallback` for a value that is a string or `undefined`: the
empty string is falsy too. -/
def orElse (value : Option Str) (fallback : Str) : Str :=
  match value with
  | some (c :: cs) => c :: cs
  | _ => fallback

/-- The call `skills.map(...)` of lines 73-80; `none` when `getSkillMetadata` throws. -/
def manifestSkills : List (Str × FsNode) → Option (List SkillEntry)
  | [] => some []
  | (skillName, e) :: rest =>
    match getSkillMetadata e with
    | none => none
    | some metadata =>
      match manifestSkills rest with
      | none => none
      | some entries =>
        some (⟨orElse metadata.name skillName, orElse metadata.description [],
          "skills/".toList ++ skillName⟩ :: entries)

/-- How a run of build.js ends. -/
inductive Outcome where
  /-- validation failed: `process.exit(1)` at line 47, before any write -/
  | validationFailed (fs : Fs)
  /-- an exception thrown after validation was not caught: exit code 1, the output
  directory is left as far as it was built (not tracked) -/
  | crashed
  /-- the build ran to its end: exit code 0 -/
  | done (fs : Fs) (manifest : Manifest)

/-- The exit code of the process. -/
def Outcome.exitCode : Outcome → Nat
  | .validationFailed _ => 1
  | .crashed => 1
  | .done _ _ => 0

/-- The file system at the end, where the model tracks it. -/
def Outcome.finalFs : Outcome → Option Fs
  | .validationFailed fs => some fs
  | .crashed => none
  | .done fs _ => some fs

/-- The manifest that was built, if the run got that far. -/
def Outcome.manifest : Outcome → Option Manifest
  | .done _ m => some m
  | _ => none

/-- The function `main()` of build.js (lines 37-98).  `version` is the `version` of
package.json and `stringify` is `JSON.stringify(·, null, 2)`; `execSync` runs validate.js on
the same file system and throws when its exit code is not 0. -/
def main (version : Str) (stringify : Manifest → Str) (fs : Fs) : Outcome :=
  if (Validate.main fs).exitCode ≠ 0 then .validationFailed fs
  else
    let cleaned : Option FsNode := if existsSync fs.dist then none else fs.dist
    match mkdirSync cleaned with
    | none => .crashed
    | some dist0 =>
      match fs.skills with
      | none => .crashed
      | some src =>
        match copyRecursive src (lookupEntry "skills".toList dist0.entries) with
        | none => .crashed
        | some copied =>
          let dist1 := setEntry "skills".toList copied dist0.entries
          match readdirSync fs.skills with
          | none => .crashed
          | some _ =>
            match manifestSkills (bundleDirs fs) with
            | none => .crashed
            | some entries =>
              let manifest : Manifest :=
                ⟨"dynamodb-toolbox-skill".toList, version, entries⟩
              match writeFileSync (lookupEntry "manifest.json".toList dist1)
                  (stringify manifest) with
              | none => .crashed
              | some file =>
                .done { fs with dist := some (.dir (setEntry "manifest.json".toList file dist1)) }
                  manifest

end Build

/-! ## Well-formedness, example file systems and the statements of the claims on runs -/

mutual
/-- No directory of the tree lists a name twice. -/
def FsNode.distinctNames : FsNode → Bool
  | .file _ => true
  | .dir es => distinctEntries es
/-- No name is listed twice, here and below. -/
def distinctEntries : List (Str × FsNode) → Bool
  | [] => true
  | (n, e) :: es => (es.all fun x => decide (x.1 ≠ n)) && e.distinctNames && distinctEntries es
end

/-- The file system is well formed: no directory under `SKILLS_DIR` lists a name twice. -/
def Fs.distinctNames (fs : Fs) : Bool :=
  match fs.skills with
  | some src => src.distinctNames
  | none => true

/-- The example of the spec: bundle `a` with a complete header, bundle `b` without a
descriptor file, and an output directory left by an earlier build. -/
def exampleFs : Fs where
  skills := some (.dir [
    ("a".toList, .dir [("SKILL.md".toList,
      .file "---\nname: Alpha\ndescription: Does A things\n---\n# Alpha\n".toList)]),
    ("b".toList, .dir [])])
  dist := some (.dir [("manifest.json".toList, .file "old".toList)])

/-- The manifest entry that C6 states for the folder `f` with the metadata `md`. -/
def statedEntry (f : Str) (md : Metadata) : Build.SkillEntry :=
  ⟨md.name.getD f, md.description.getD [], "skills/".toList ++ f⟩

/-- The manifest entry for the folder `f` with the metadata `md`: the name is the recovered
name when that is a non-empty string and `f` otherwise. -/
def builtEntry (f : Str) (md : Metadata) : Build.SkillEntry :=
  ⟨match md.name with
    | some n => if n = [] then f else n
    | none => f,
   md.description.getD [], "skills/".toList ++ f⟩

/-- The statement of C6 for one run: the manifest that is built has one entry per bundle
folder, in listing order, and each is the stated entry. -/
def ManifestAsStated (version : Str) (stringify : Build.Manifest → Str) (fs : Fs) : Prop :=
  ∀ m, (Build.main version stringify fs).manifest = some m →
    List.Forall₂ (fun d e => ∃ md, Build.getSkillMetadata d.2 = some md ∧ e = statedEntry d.1 md)
      (bundleDirs fs) m.skills

/-- One bundle `b` whose header ends with the line `name: `, a name that trims to the empty
string; no output directory yet. -/
def blankNameFs : Fs where
  skills := some (.dir [
    ("b".toList, .dir [("SKILL.md".toList, .file "---\ndescription: x\nname: \n---".toList)])])
  dist := none

/-- The last part of C8 for one file system: when there are bundle directories,
`validateSkill` is run on every one of them. -/
def RunsOnAll (fs : Fs) : Prop :=
  bundleDirs fs ≠ [] → (Validate.main fs).validated = (bundleDirs fs).map Prod.fst

/-- Three bundles: `a` without a descriptor, `b` whose `SKILL.md` is a directory, and `c`
with a complete header. -/
def throwingFs : Fs where
  skills := some (.dir [
    ("a".toList, .dir []),
    ("b".toList, .dir [("SKILL.md".toList, .dir [])]),
    ("c".toList, .dir [("SKILL.md".toList,
      .file "---\nname: Gamma\ndescription: Does C things\n---\n".toList)])])
  dist := none

/-! ## Theorems -/

theorem firstOf_none_left {α : Type} (b : Option α) : firstOf none b = b := rfl

theorem firstOf_some_left {α : Type} (r : α) (b : Option α) : firstOf (some r) b = some r := rfl

theorem firstOf_none_right {α : Type} (a : Option α) : firstOf a none = a := by
  cases a <;> rfl

theorem firstOf_isSome {α : Type} (a b : Option α) :
    (firstOf a b).isSome = (a.isSome || b.isSome) := by
  cases a <;> simp [firstOf]

theorem firstOf_eq_none {α : Type} (a b : Option α) :
    firstOf a b = none ↔ a = none ∧ b = none := by
  cases a <;> simp [firstOf]

theorem firstOf_map {α β : Type} (f : α → β) (a b : Option α) :
    (firstOf a b).map f = firstOf (a.map f) (b.map f) := by
  cases a <;> simp [firstOf]

theorem lits_eq (s : String) : lits s = litNodes s.toList := rfl

/-- A literal run matches exactly when it is a prefix of the remaining input. -/
theorem run_litNodes (m : Bool) (l : Str) (ns : List Node) (s : MState) :
    run m (litNodes l ++ ns) s =
      if l <+: s.rest then
        run m ns ⟨lastOr s.prev l, s.rest.drop l.length, s.inGroup,
          if s.inGroup then s.cap ++ l else s.cap⟩
      else none := by
  induction l generalizing s with
  | nil =>
    obtain ⟨prev, rest, ig, cap⟩ := s
    cases ig <;> simp [litNodes, lastOr]
  | cons x l ih =>
    obtain ⟨prev, rest, ig, cap⟩ := s
    cases rest with
    | nil => simp [litNodes, run]
    | cons c cs =>
      have ih' := ih (MState.step ⟨prev, c :: cs, ig, cap⟩ c cs)
      simp only [litNodes, MState.step] at ih'
      simp only [litNodes, List.map_cons, List.cons_append, run, Atom.test]
      by_cases hx : c = x
      · subst hx
        simp only [beq_self_eq_true, if_true, MState.step, List.cons_prefix_cons, true_and,
          lastOr, List.length_cons, List.drop_succ_cons, List.append_eq]
        rw [ih']
        cases ig <;> simp
      · have hx' : ¬ x = c := fun h => hx h.symm
        simp [hx, hx', List.cons_prefix_cons]

theorem run_close (s : MState) :
    run false (.groupClose :: lits "\n---") s =
      if closeMarker <+: s.rest then some ⟨some '-', s.rest.drop 4, false, s.cap⟩ else none := by
  rw [run, lits_eq]
  have h := run_litNodes false closeMarker [] { s with inGroup := false }
  simp only [List.append_nil] at h
  have e : "\n---".toList = closeMarker := by decide
  rw [e, h]
  simp [run, lastOr, closeMarker]

/-- The lazy loop of the header pattern is the scan for the first closing marker. -/
theorem loop_findClose (prev : Option Char) (cap r : Str) :
    loop .any false (fun t => run false (.groupClose :: lits "\n---") t) true prev cap r =
      (findClose cap r).map fun p => ⟨some '-', p.2, false, p.1⟩ := by
  induction r generalizing prev cap with
  | nil => simp [loop, run_close, findClose, closeMarker]
  | cons c cs ih =>
    rw [loop, findClose, run_close]
    simp only [Atom.test, if_true, Bool.false_eq_true, if_false]
    by_cases h : closeMarker <+: c :: cs
    · simp [h, firstOf]
    · rw [if_neg h, if_neg h, firstOf_none_left, ih]

theorem run_frontmatterRe_start (content : Str) :
    run false frontmatterRe ⟨none, content, false, []⟩ =
      if openMarker <+: content then
        (findClose [] (content.drop 4)).map fun p => ⟨some '-', p.2, false, p.1⟩
      else none := by
  have e : "---\n".toList = openMarker := by decide
  have h := run_litNodes false openMarker
    ([.groupOpen, .star .any false, .groupClose] ++ lits "\n---") ⟨none, content, false, []⟩
  unfold frontmatterRe
  rw [List.append_assoc, List.append_assoc, List.singleton_append, run, lits_eq, e]
  simp only [atLineStart, if_true]
  rw [h]
  by_cases hp : openMarker <+: content
  · rw [if_pos hp, if_pos hp]
    simp only [List.cons_append, List.nil_append]
    rw [run, run]
    exact loop_findClose _ _ _
  · rw [if_neg hp, if_neg hp]

theorem run_frontmatterRe_later (c : Char) (r : Str) :
    run false frontmatterRe ⟨some c, r, false, []⟩ = none := by
  simp [frontmatterRe, run, atLineStart]

theorem execFrom_frontmatterRe_later (c : Char) (r : Str) :
    execFrom false frontmatterRe (some c) r = none := by
  induction r generalizing c with
  | nil => simp [execFrom, run_frontmatterRe_later]
  | cons d ds ih => simp [execFrom, run_frontmatterRe_later, ih, firstOf]

/-- The header block is what precedes the first closing marker after the opening marker. -/
theorem frontmatterOf_eq (content : Str) :
    frontmatterOf content =
      if openMarker <+: content then (findClose [] (content.drop 4)).map Prod.fst else none := by
  unfold frontmatterOf exec1
  cases content with
  | nil => simp [execFrom, run_frontmatterRe_start, openMarker]
  | cons c cs =>
    rw [execFrom, execFrom_frontmatterRe_later, firstOf_none_right, run_frontmatterRe_start]
    by_cases hp : openMarker <+: c :: cs
    · rw [if_pos hp, if_pos hp, Option.map_map]; rfl
    · rw [if_neg hp, if_neg hp]; rfl

/-- The greedy `.+` loop followed by `$` always succeeds and takes the rest of the line. -/
theorem loop_dot_eol (ns : List Node) (f : MState → MState)
    (hk : ∀ t, run true ns t = if atLineEnd true t.rest then some (f t) else none)
    (ig : Bool) (prev : Option Char) (cap r : Str) :
    loop .dot true (fun t => run true ns t) ig prev cap r =
      some (f ⟨lastOr prev (lineHead r), r.dropWhile (fun c => !isLineTerminator c), ig,
        if ig then cap ++ lineHead r else cap⟩) := by
  induction r generalizing prev cap with
  | nil => cases ig <;> simp [loop, hk, atLineEnd, lineHead, lastOr]
  | cons c cs ih =>
    rw [loop]
    by_cases hc : isLineTerminator c = true
    · cases ig <;> simp [Atom.test, hc, hk, atLineEnd, lineHead, lastOr, firstOf]
    · simp only [Bool.not_eq_true] at hc
      simp only [Atom.test, hc, Bool.not_false, if_true, ih, firstOf_some_left]
      cases ig <;> simp [lineHead, hc, lastOr]

theorem run_eol (t : MState) :
    run true [.eol] t = if atLineEnd true t.rest then some t else none := by
  simp [run]

theorem run_groupClose_eol (t : MState) :
    run true [.groupClose, .eol] t =
      if atLineEnd true t.rest then some { t with inGroup := false } else none := by
  simp [run]

/-- The tail `(.+)$` of the key pattern of build.js captures `valueAt`. -/
theorem run_valueTail (prev : Option Char) (cap r : Str) :
    (run true [.groupOpen, .plus .dot true, .groupClose, .eol] ⟨prev, r, false, cap⟩).map MState.cap
      = valueAt r := by
  cases r with
  | nil => simp [run, valueAt]
  | cons c cs =>
    rw [run, run]
    by_cases hc : isLineTerminator c = true
    · simp [Atom.test, hc, valueAt]
    · simp only [Bool.not_eq_true] at hc
      simp only [Atom.test, hc, Bool.not_false, if_true, valueAt, Bool.false_eq_true, if_false]
      rw [loop_dot_eol [.groupClose, .eol] (fun t => { t with inGroup := false })
        run_groupClose_eol]
      simp [MState.step]

/-- The tail `.+$` of the key pattern of validate.js succeeds exactly when `valueAt` does. -/
theorem run_testTail (prev : Option Char) (cap r : Str) :
    (run true [.plus .dot true, .eol] ⟨prev, r, false, cap⟩).isSome = (valueAt r).isSome := by
  cases r with
  | nil => simp [run, valueAt]
  | cons c cs =>
    rw [run]
    by_cases hc : isLineTerminator c = true
    · simp [Atom.test, hc, valueAt]
    · simp only [Bool.not_eq_true] at hc
      simp only [Atom.test, hc, Bool.not_false, if_true, valueAt, Bool.false_eq_true, if_false]
      rw [loop_dot_eol [.eol] (fun t => t) run_eol]
      simp

theorem loop_space_value (prev : Option Char) (cap r : Str) :
    (loop .space true (fun t => run true [.groupOpen, .plus .dot true, .groupClose, .eol] t)
      false prev cap r).map MState.cap = valueOf r := by
  induction r generalizing prev cap with
  | nil => rw [loop, run_valueTail]; rfl
  | cons c cs ih =>
    rw [loop]
    simp only [if_true, firstOf_map, run_valueTail, Bool.false_eq_true, if_false, valueOf,
      Atom.test]
    by_cases hc : isWhiteSpace c = true
    · rw [if_pos hc, if_pos hc, ih]
    · rw [if_neg hc, if_neg hc]; rfl

theorem loop_space_test (prev : Option Char) (cap r : Str) :
    (loop .space true (fun t => run true [.plus .dot true, .eol] t)
      false prev cap r).isSome = (valueOf r).isSome := by
  induction r generalizing prev cap with
  | nil => rw [loop, run_testTail]; rfl
  | cons c cs ih =>
    rw [loop]
    simp only [if_true, firstOf_isSome, run_testTail, Bool.false_eq_true, if_false, valueOf,
      Atom.test]
    by_cases hc : isWhiteSpace c = true
    · rw [if_pos hc, if_pos hc, ih, firstOf_isSome]
    · rw [if_neg hc, if_neg hc]; rfl

theorem lits_key (key : String) : lits key ++ lits ":" = litNodes (keyChars key) := by
  simp [lits, litNodes, keyChars]

theorem run_keyValueRe (key : String) (prev : Option Char) (r : Str) :
    (run true (keyValueRe key) ⟨prev, r, false, []⟩).map MState.cap =
      keyAt (keyChars key) prev r := by
  unfold keyValueRe keyAt
  rw [List.append_assoc, List.append_assoc, List.singleton_append, run, ← List.append_assoc,
    lits_key, run_litNodes]
  by_cases h1 : atLineStart true prev = true
  · by_cases h2 : keyChars key <+: r
    · simp only [h1, h2, if_true, and_self, Bool.false_eq_true, if_false]
      rw [run]
      exact loop_space_value _ _ _
    · simp [h1, h2]
  · simp [h1]

theorem run_hasKeyRe (key : String) (prev : Option Char) (r : Str) :
    (run true (hasKeyRe key) ⟨prev, r, false, []⟩).isSome =
      (keyAt (keyChars key) prev r).isSome := by
  unfold hasKeyRe keyAt
  rw [List.append_assoc, List.append_assoc, List.singleton_append, run, ← List.append_assoc,
    lits_key, run_litNodes]
  by_cases h1 : atLineStart true prev = true
  · by_cases h2 : keyChars key <+: r
    · simp only [h1, h2, if_true, and_self, Bool.false_eq_true, if_false]
      rw [run]
      exact loop_space_test _ _ _
    · simp [h1, h2]
  · simp [h1]

theorem execFrom_keyValueRe (key : String) (prev : Option Char) (r : Str) :
    (execFrom true (keyValueRe key) prev r).map MState.cap = keyExec (keyChars key) prev r := by
  induction r generalizing prev with
  | nil => rw [execFrom, run_keyValueRe, keyExec]
  | cons c cs ih => rw [execFrom, firstOf_map, run_keyValueRe, ih, keyExec]

theorem execFrom_hasKeyRe (key : String) (prev : Option Char) (r : Str) :
    (execFrom true (hasKeyRe key) prev r).isSome = (keyExec (keyChars key) prev r).isSome := by
  induction r generalizing prev with
  | nil => rw [execFrom, run_hasKeyRe, keyExec]
  | cons c cs ih => rw [execFrom, firstOf_isSome, run_hasKeyRe, ih, keyExec, firstOf_isSome]

/-- The value expression of build.js in terms of the pattern-free scan. -/
theorem keyValue_eq (key : String) (fm : Str) :
    keyValue key fm = (keyExec (keyChars key) none fm).map trim := by
  unfold keyValue exec1
  rw [execFrom_keyValueRe]

/-- The key test of validate.js in terms of the pattern-free scan. -/
theorem test_hasKeyRe (key : String) (fm : Str) :
    test true (hasKeyRe key) fm = (keyExec (keyChars key) none fm).isSome := by
  unfold test
  rw [execFrom_hasKeyRe]

theorem jsLines_eq_cons (r : Str) : jsLines r = lineHead r :: (jsLines r).tail := by
  induction r with
  | nil => simp [jsLines, lineHead]
  | cons c cs ih =>
    rw [jsLines]
    by_cases hc : isLineTerminator c = true
    · simp [hc, lineHead]
    · rw [if_neg hc, ih]
      simp [lineHead, hc]

theorem jsLines_tail_cons (c : Char) (cs : Str) :
    (jsLines (c :: cs)).tail = if isLineTerminator c then jsLines cs else (jsLines cs).tail := by
  rw [jsLines]
  by_cases hc : isLineTerminator c = true
  · simp [hc]
  · rw [if_neg hc, if_neg hc, jsLines_eq_cons cs]
    rfl

theorem linesFrom_nil (prev : Option Char) :
    linesFrom prev [] = if atLineStart true prev then [[]] else [] := by
  simp [linesFrom, jsLines]

theorem linesFrom_cons (prev : Option Char) (c : Char) (cs : Str) :
    linesFrom prev (c :: cs) =
      (if atLineStart true prev then [lineHead (c :: cs)] else []) ++ linesFrom (some c) cs := by
  have ht : (jsLines (c :: cs)).tail = linesFrom (some c) cs := by
    rw [jsLines_tail_cons]
    simp [linesFrom, atLineStart]
  unfold linesFrom
  by_cases hp : atLineStart true prev = true
  · rw [if_pos hp, if_pos hp, jsLines_eq_cons (c :: cs), ht]
    rfl
  · rw [if_neg hp, if_neg hp, ht]
    rfl

/-- A text without line terminators is a prefix of a text exactly when it is a prefix of the
first line. -/
theorem prefix_lineHead (kc r : Str) (hk : ∀ c ∈ kc, isLineTerminator c = false) :
    kc <+: lineHead r ↔ kc <+: r := by
  induction kc generalizing r with
  | nil => simp
  | cons k ks ih =>
    cases r with
    | nil => simp [lineHead]
    | cons c cs =>
      by_cases hc : isLineTerminator c = true
      · have hk0 := hk k (List.mem_cons_self _ _)
        have hne : ¬ k = c := by
          intro h; subst h; rw [hc] at hk0; exact absurd hk0 (by simp)
        simp [lineHead, hc, List.cons_prefix_cons, hne]
      · have := ih cs (fun c hc => hk c (List.mem_cons_of_mem _ hc))
        simp only [lineHead] at this
        simp [lineHead, hc, List.cons_prefix_cons, this]

theorem lineHead_drop (kc r : Str) (h : kc <+: lineHead r) :
    (lineHead r).drop kc.length = lineHead (r.drop kc.length) := by
  induction kc generalizing r with
  | nil => simp
  | cons k ks ih =>
    cases r with
    | nil => simp [lineHead] at h
    | cons c cs =>
      by_cases hc : isLineTerminator c = true
      · simp [lineHead, hc] at h
      · simp only [Bool.not_eq_true] at hc
        have h' : k :: ks <+: c :: lineHead cs := by simpa [lineHead, hc] using h
        rw [List.cons_prefix_cons] at h'
        have h2 := ih cs h'.2
        simp only [lineHead] at h2
        simp [lineHead, hc, h2]

theorem valueOf_isSome (x : Str) (h : lineHead x ≠ []) : (valueOf x).isSome = true := by
  cases x with
  | nil => simp [lineHead] at h
  | cons c cs =>
    have hc : isLineTerminator c = false := by
      by_contra hc
      simp only [Bool.not_eq_false] at hc
      simp [lineHead, hc] at h
    rw [valueOf]
    by_cases hw : isWhiteSpace c = true
    · rw [if_pos hw, firstOf_isSome]
      simp [valueAt, hc]
    · rw [if_neg hw]
      simp [valueAt, hc]

/-- When the rest of the line holds a character that is not white space, the capture starts
at the first such character and runs to the end of the line. -/
theorem valueOf_line (x : Str) (h : ∃ c ∈ lineHead x, isWhiteSpace c = false) :
    valueOf x = some ((lineHead x).dropWhile isWhiteSpace) := by
  induction x with
  | nil => simp [lineHead] at h
  | cons c cs ih =>
    have hc : isLineTerminator c = false := by
      by_contra hc
      simp only [Bool.not_eq_false] at hc
      simp [lineHead, hc] at h
    have hl : lineHead (c :: cs) = c :: lineHead cs := by simp [lineHead, hc]
    rw [valueOf, hl]
    by_cases hw : isWhiteSpace c = true
    · rw [if_pos hw]
      have h' : ∃ d ∈ lineHead cs, isWhiteSpace d = false := by
        obtain ⟨d, hd, hdw⟩ := h
        rw [hl] at hd
        rcases List.mem_cons.mp hd with rfl | hd'
        · rw [hw] at hdw; exact absurd hdw (by simp)
        · exact ⟨d, hd', hdw⟩
      rw [ih h', firstOf_some_left]
      simp [List.dropWhile_cons, hw]
    · rw [if_neg hw]
      simp [valueAt, hc, List.dropWhile_cons, hw]

theorem keyAt_midline (kc : Str) (prev : Option Char) (r : Str)
    (h : ¬ atLineStart true prev = true) : keyAt kc prev r = none := by
  simp [keyAt, h]

theorem keyAt_unprefixed (kc : Str) (prev : Option Char) (r : Str)
    (hk : ∀ c ∈ kc, isLineTerminator c = false) (h : ¬ kc <+: lineHead r) :
    keyAt kc prev r = none := by
  rw [prefix_lineHead kc r hk] at h
  simp [keyAt, h]

theorem keyAt_prefixed (kc : Str) (prev : Option Char) (r : Str)
    (hk : ∀ c ∈ kc, isLineTerminator c = false) (hs : atLineStart true prev = true)
    (h : kc <+: lineHead r) : keyAt kc prev r = valueOf (r.drop kc.length) := by
  have h' := (prefix_lineHead kc r hk).mp h
  simp [keyAt, hs, h']

/-- No line begins with the key: the scan finds nothing. -/
theorem keyExec_none (kc : Str) (hk : ∀ c ∈ kc, isLineTerminator c = false)
    (prev : Option Char) (r : Str) (h : ∀ l ∈ linesFrom prev r, ¬ kc <+: l) :
    keyExec kc prev r = none := by
  induction r generalizing prev with
  | nil =>
    rw [keyExec]
    by_cases hs : atLineStart true prev = true
    · have := h [] (by simp [linesFrom_nil, hs])
      exact keyAt_unprefixed kc prev [] hk (by simpa [lineHead] using this)
    · exact keyAt_midline kc prev [] hs
  | cons c cs ih =>
    rw [keyExec, firstOf_eq_none]
    rw [linesFrom_cons] at h
    constructor
    · by_cases hs : atLineStart true prev = true
      · exact keyAt_unprefixed kc prev _ hk (h _ (by simp [hs]))
      · exact keyAt_midline kc prev _ hs
    · exact ih (some c) (fun l hl => h l (List.mem_append_right _ hl))

/-- Some line begins with the key and goes on after it: the scan finds something. -/
theorem keyExec_isSome (kc : Str) (hk : ∀ c ∈ kc, isLineTerminator c = false)
    (prev : Option Char) (r : Str)
    (h : ∃ l ∈ linesFrom prev r, kc <+: l ∧ kc.length < l.length) :
    (keyExec kc prev r).isSome = true := by
  induction r generalizing prev with
  | nil =>
    obtain ⟨l, hl, _, hlen⟩ := h
    rw [linesFrom_nil] at hl
    by_cases hs : atLineStart true prev = true
    · simp [hs] at hl; subst hl; simp at hlen
    · simp [hs] at hl
  | cons c cs ih =>
    obtain ⟨l, hl, hpre, hlen⟩ := h
    rw [keyExec, firstOf_isSome]
    rw [linesFrom_cons, List.mem_append] at hl
    rcases hl with hl | hl
    · by_cases hs : atLineStart true prev = true
      · simp only [hs, if_true, List.mem_singleton] at hl
        subst hl
        rw [keyAt_prefixed kc prev _ hk hs hpre, valueOf_isSome, Bool.true_or]
        rw [← lineHead_drop kc _ hpre]
        intro h0
        have := congrArg List.length h0
        simp at this
        omega
      · simp [hs] at hl
    · rw [ih (some c) ⟨l, hl, hpre, hlen⟩, Bool.or_true]

/-- The first line that begins with the key has a value that is not blank: the scan returns
that value from its first character that is not white space. -/
theorem keyExec_first (kc : Str) (hk : ∀ c ∈ kc, isLineTerminator c = false)
    (prev : Option Char) (r l : Str)
    (hfind : (linesFrom prev r).find? (fun l => decide (kc <+: l)) = some l)
    (hv : ∃ c ∈ l.drop kc.length, isWhiteSpace c = false) :
    keyExec kc prev r = some ((l.drop kc.length).dropWhile isWhiteSpace) := by
  induction r generalizing prev with
  | nil =>
    rw [linesFrom_nil] at hfind
    by_cases hs : atLineStart true prev = true
    · simp only [hs, if_true, List.find?_cons, List.find?_nil] at hfind
      split at hfind
      · simp only [Option.some.injEq] at hfind; subst hfind; simp at hv
      · simp at hfind
    · simp [hs] at hfind
  | cons c cs ih =>
    rw [keyExec]
    rw [linesFrom_cons] at hfind
    by_cases hs : atLineStart true prev = true
    · by_cases hp : kc <+: lineHead (c :: cs)
      · simp only [hs, if_true, List.singleton_append, List.find?_cons, hp, decide_True,
          Option.some.injEq] at hfind
        subst hfind
        rw [keyAt_prefixed kc prev _ hk hs hp, valueOf_line, firstOf_some_left,
          lineHead_drop kc _ hp]
        rw [← lineHead_drop kc _ hp]
        exact hv
      · simp only [hs, if_true, List.singleton_append, List.find?_cons, hp, decide_False] at hfind
        rw [keyAt_unprefixed kc prev _ hk hp, firstOf_none_left]
        exact ih (some c) hfind
    · simp only [hs, Bool.false_eq_true, if_false, List.nil_append] at hfind
      rw [keyAt_midline kc prev _ hs, firstOf_none_left]
      exact ih (some c) hfind

theorem findClose_eq_none (acc r : Str) : findClose acc r = none ↔ ¬ closeMarker <:+: r := by
  induction r generalizing acc with
  | nil => simp [findClose, closeMarker]
  | cons c cs ih =>
    rw [findClose, List.infix_cons_iff]
    by_cases h : closeMarker <+: c :: cs
    · simp [h]
    · rw [if_neg h, ih]
      simp [h]

theorem findClose_some (acc r cap rest : Str) (h : findClose acc r = some (cap, rest)) :
    ∃ body, cap = acc ++ body ∧ r = body ++ closeMarker ++ rest := by
  induction r generalizing acc with
  | nil => simp [findClose] at h
  | cons c cs ih =>
    rw [findClose] at h
    by_cases hp : closeMarker <+: c :: cs
    · rw [if_pos hp] at h
      simp only [Option.some.injEq, Prod.mk.injEq] at h
      refine ⟨[], by simp [h.1], ?_⟩
      rw [← h.2]
      have := (List.prefix_iff_eq_append.mp hp).symm
      simpa [closeMarker] using this
    · rw [if_neg hp] at h
      obtain ⟨body, h1, h2⟩ := ih _ h
      exact ⟨c :: body, by simp [h1], by simp [h2]⟩

theorem findClose_marker (acc rest : Str) :
    findClose acc (closeMarker ++ rest) = some (acc, rest) := by
  simp [closeMarker, findClose]

theorem findClose_skip (acc l t : Str) (hl : ∀ c ∈ l, c ≠ '\n') :
    findClose acc (l ++ t) = findClose (acc ++ l) t := by
  induction l generalizing acc with
  | nil => simp
  | cons c cs ih =>
    have hc : c ≠ '\n' := hl c (List.mem_cons_self _ _)
    have hc' : ¬ '\n' = c := fun h => hc h.symm
    rw [List.cons_append, findClose]
    have hp : ¬ closeMarker <+: c :: (cs ++ t) := by
      simp [closeMarker, List.cons_prefix_cons, hc']
    rw [if_neg hp, ih _ (fun d hd => hl d (List.mem_cons_of_mem _ hd))]
    simp

theorem not_dashes_prefix_append (l y : Str) (h : ¬ ['-', '-', '-'] <+: l) :
    ¬ ['-', '-', '-'] <+: l ++ '\n' :: y := by
  rcases l with _ | ⟨a, _ | ⟨b, _ | ⟨c, t⟩⟩⟩ <;> simp_all [List.cons_prefix_cons]
  assumption

theorem findClose_newline (acc t : Str) (h : ¬ ['-', '-', '-'] <+: t) :
    findClose acc ('\n' :: t) = findClose (acc ++ ['\n']) t := by
  rw [findClose]
  have hp : ¬ closeMarker <+: '\n' :: t := by
    simpa [closeMarker, List.cons_prefix_cons] using h
  rw [if_neg hp]

theorem intercalate_cons_cons (x y : Str) (ys : List Str) :
    ['\n'].intercalate (x :: y :: ys) = x ++ '\n' :: ['\n'].intercalate (y :: ys) := by
  simp [List.intercalate, List.intersperse]

theorem intercalate_single (x : Str) : ['\n'].intercalate [x] = x := by
  simp [List.intercalate, List.intersperse]

theorem intercalate_cons_shape (x : Str) (xs : List Str) (t : Str) :
    ∃ y, ['\n'].intercalate (x :: xs) ++ closeMarker ++ t = x ++ '\n' :: y := by
  cases xs with
  | nil => exact ⟨['-', '-', '-'] ++ t, by simp [intercalate_single, closeMarker]⟩
  | cons y ys =>
    exact ⟨['\n'].intercalate (y :: ys) ++ closeMarker ++ t, by simp [intercalate_cons_cons]⟩

/-- Lines that hold no newline and do not begin with the marker: the scan runs through all
of them and stops at the closing marker that follows. -/
theorem findClose_lines (l : Str) (ls : List Str) (acc rest : Str)
    (hnl : ∀ x ∈ l :: ls, ∀ c ∈ x, c ≠ '\n') (hmark : ∀ x ∈ ls, ¬ ['-', '-', '-'] <+: x) :
    findClose acc (['\n'].intercalate (l :: ls) ++ closeMarker ++ rest) =
      some (acc ++ ['\n'].intercalate (l :: ls), rest) := by
  induction ls generalizing l acc with
  | nil =>
    rw [intercalate_single, List.append_assoc, findClose_skip _ _ _ (hnl l (by simp)),
      findClose_marker]
  | cons y ys ih =>
    rw [intercalate_cons_cons, List.append_assoc, List.append_assoc,
      findClose_skip _ _ _ (hnl l (by simp)), List.cons_append, findClose_newline,
      ← List.append_assoc,
      ih y _ (fun x hx => hnl x (List.mem_cons_of_mem _ hx))
        (fun x hx => hmark x (List.mem_cons_of_mem _ hx))]
    · simp
    · obtain ⟨z, hz⟩ := intercalate_cons_shape y ys rest
      rw [List.append_assoc] at hz
      rw [hz]
      exact not_dashes_prefix_append y z (hmark y (by simp))

theorem findClose_intercalate (ls : List Str) (rest : Str)
    (hnl : ∀ x ∈ ls, ∀ c ∈ x, c ≠ '\n') (hmark : ∀ x ∈ ls.tail, ¬ ['-', '-', '-'] <+: x) :
    findClose [] (['\n'].intercalate ls ++ closeMarker ++ rest) =
      some (['\n'].intercalate ls, rest) := by
  cases ls with
  | nil => simp [List.intercalate, findClose_marker]
  | cons l ls => simpa using findClose_lines l ls [] rest hnl hmark

theorem frontmatterOf_open (r : Str) :
    frontmatterOf (openMarker ++ r) = (findClose [] r).map Prod.fst := by
  rw [frontmatterOf_eq, if_pos (List.prefix_append _ _)]
  simp [openMarker]

theorem jsLines_of_no_terminator (l : Str) (h : ∀ c ∈ l, isLineTerminator c = false) :
    jsLines l = [l] := by
  induction l with
  | nil => rfl
  | cons c cs ih =>
    rw [jsLines, if_neg (by simp [h c (List.mem_cons_self _ _)]),
      ih (fun d hd => h d (List.mem_cons_of_mem _ hd))]

theorem jsLines_append_terminator (a b : Str) (t : Char) (ht : isLineTerminator t = true) :
    jsLines (a ++ t :: b) = jsLines a ++ jsLines b := by
  induction a with
  | nil => simp [jsLines, ht]
  | cons c cs ih =>
    rw [List.cons_append, jsLines, jsLines, ih]
    by_cases hc : isLineTerminator c = true
    · simp [hc]
    · rw [if_neg hc, if_neg hc, jsLines_eq_cons cs]
      rfl

theorem mem_jsLines_intercalate (ls : List Str) (l : Str) (hl : l ∈ ls)
    (h : ∀ c ∈ l, isLineTerminator c = false) : l ∈ jsLines (['\n'].intercalate ls) := by
  induction ls with
  | nil => simp at hl
  | cons x xs ih =>
    cases xs with
    | nil =>
      simp only [List.mem_singleton] at hl
      subst hl
      rw [intercalate_single, jsLines_of_no_terminator l h]
      simp
    | cons y ys =>
      rw [intercalate_cons_cons, jsLines_append_terminator _ _ _ (by decide), List.mem_append]
      rcases List.mem_cons.mp hl with rfl | hl'
      · left
        rw [jsLines_of_no_terminator l h]
        simp
      · exact Or.inr (ih hl')

theorem keyChars_no_terminator (key : String) (h : key = "name" ∨ key = "description") :
    ∀ c ∈ keyChars key, isLineTerminator c = false := by
  rcases h with rfl | rfl <;> decide

theorem trim_dropWhile (x : Str) : trim (x.dropWhile isWhiteSpace) = trim x := by
  unfold trim
  rw [List.dropWhile_idempotent]

theorem hasKey_of_line (key : String) (hkey : key = "name" ∨ key = "description")
    (fm v : Str) (hv : v ≠ []) (h : keyChars key ++ v ∈ jsLines fm) :
    test true (hasKeyRe key) fm = true := by
  rw [test_hasKeyRe]
  apply keyExec_isSome _ (keyChars_no_terminator key hkey)
  refine ⟨_, by simpa [linesFrom, atLineStart] using h, List.prefix_append _ _, ?_⟩
  have : 0 < v.length := List.length_pos.mpr hv
  simp
  omega

theorem not_hasKey_of_no_line (key : String) (hkey : key = "name" ∨ key = "description")
    (fm : Str) (h : ∀ l ∈ jsLines fm, ¬ keyChars key <+: l) :
    test true (hasKeyRe key) fm = false := by
  rw [test_hasKeyRe, keyExec_none _ (keyChars_no_terminator key hkey)]
  · rfl
  · simpa [linesFrom, atLineStart] using h

/-- C1. A descriptor made of the opening marker line, a body of lines of which none begins
with the marker, one is `name: V` and one is `description: W` (V and W not blank and without
line terminator, in any order, among any other lines), and a closing marker followed by any
text, is accepted by `validateFrontmatter`. -/
theorem validateFrontmatter_wellFormed (ls : List Str) (V W rest : Str)
    (hlines : ∀ l ∈ ls, ∀ c ∈ l, c ≠ '\n')
    (hmark : ∀ l ∈ ls, ¬ "---".toList <+: l)
    (hname : "name: ".toList ++ V ∈ ls) (hdesc : "description: ".toList ++ W ∈ ls)
    (_hV : ∃ c ∈ V, isWhiteSpace c = false) (hVt : ∀ c ∈ V, isLineTerminator c = false)
    (_hW : ∃ c ∈ W, isWhiteSpace c = false) (hWt : ∀ c ∈ W, isLineTerminator c = false) :
    validateFrontmatter ("---\n".toList ++ ['\n'].intercalate ls ++ "\n---".toList ++ rest)
      = Verdict.valid := by
  have e1 : "---\n".toList = openMarker := by decide
  have e2 : "\n---".toList = closeMarker := by decide
  have e3 : "---".toList = ['-', '-', '-'] := by decide
  have hfm : frontmatterOf ("---\n".toList ++ ['\n'].intercalate ls ++ "\n---".toList ++ rest)
      = some (['\n'].intercalate ls) := by
    rw [e1, e2, List.append_assoc, List.append_assoc, frontmatterOf_open, ← List.append_assoc,
      findClose_intercalate ls rest hlines
        (fun x hx => by simpa [e3] using hmark x (List.mem_of_mem_tail hx))]
    rfl
  have hn : test true (hasKeyRe "name") (['\n'].intercalate ls) = true := by
    apply hasKey_of_line "name" (Or.inl rfl) _ (' ' :: V) (by simp)
    have e : keyChars "name" ++ ' ' :: V = "name: ".toList ++ V := by
      simp [keyChars]
    rw [e]
    apply mem_jsLines_intercalate ls _ hname
    intro c hc
    rcases List.mem_append.mp hc with h | h
    · exact (show ∀ d ∈ "name: ".toList, isLineTerminator d = false by decide) c h
    · exact hVt c h
  have hd : test true (hasKeyRe "description") (['\n'].intercalate ls) = true := by
    apply hasKey_of_line "description" (Or.inr rfl) _ (' ' :: W) (by simp)
    have e : keyChars "description" ++ ' ' :: W = "description: ".toList ++ W := by
      simp [keyChars]
    rw [e]
    apply mem_jsLines_intercalate ls _ hdesc
    intro c hc
    rcases List.mem_append.mp hc with h | h
    · exact (show ∀ d ∈ "description: ".toList, isLineTerminator d = false by decide) c h
    · exact hWt c h
  unfold validateFrontmatter
  rw [hfm]
  simp [hn, hd]

theorem validateFrontmatter_wellFormed_witness :
    validateFrontmatter ("---\n".toList ++
        ['\n'].intercalate ["license: MIT".toList, "description: Does A things".toList,
          "name: Alpha".toList] ++ "\n---".toList ++ "\n# Alpha\n".toList) = Verdict.valid :=
  validateFrontmatter_wellFormed
    ["license: MIT".toList, "description: Does A things".toList, "name: Alpha".toList]
    "Alpha".toList "Does A things".toList "\n# Alpha\n".toList
    (by decide) (by decide) (by decide) (by decide) (by decide) (by decide) (by decide)
    (by decide)

/-- C2. A text that does not begin with the line `---` followed by a newline, or in which no
`\n---` occurs after that opening line, gets the result 'Missing YAML frontmatter', which is
neither of the two missing-field results. -/
theorem validateFrontmatter_noHeader (content : Str)
    (h : ¬ "---\n".toList <+: content ∨ ¬ "\n---".toList <:+: content.drop 4) :
    validateFrontmatter content = Verdict.missingFrontmatter ∧
      validateFrontmatter content ≠ Verdict.missingName ∧
      validateFrontmatter content ≠ Verdict.missingDescription := by
  have e1 : "---\n".toList = openMarker := by decide
  have e2 : "\n---".toList = closeMarker := by decide
  rw [e1, e2] at h
  have hfm : frontmatterOf content = none := by
    rw [frontmatterOf_eq]
    by_cases hp : openMarker <+: content
    · rw [if_pos hp]
      rcases h with h | h
      · exact absurd hp h
      · rw [(findClose_eq_none [] _).mpr h]; rfl
    · rw [if_neg hp]
  have hv : validateFrontmatter content = Verdict.missingFrontmatter := by
    unfold validateFrontmatter
    rw [hfm]
  rw [hv]
  exact ⟨rfl, by decide, by decide⟩

theorem validateFrontmatter_noHeader_witness :
    validateFrontmatter "---\nname: Alpha\ndescription: Does A things\n".toList
        = Verdict.missingFrontmatter ∧
      validateFrontmatter "---\nname: Alpha\ndescription: Does A things\n".toList
        ≠ Verdict.missingName ∧
      validateFrontmatter "---\nname: Alpha\ndescription: Does A things\n".toList
        ≠ Verdict.missingDescription :=
  validateFrontmatter_noHeader "---\nname: Alpha\ndescription: Does A things\n".toList
    (Or.inr (by decide))

/-- C3. When the header block has a line `name: V` with V not blank and no line that begins
with `description:`, the result is 'Missing "description" in frontmatter'.  Lines are the
lines of the `m` flag, delimited by the ECMAScript line terminators. -/
theorem validateFrontmatter_missingDescription (content fm V : Str)
    (hfm : frontmatterOf content = some fm)
    (hname : "name: ".toList ++ V ∈ jsLines fm)
    (_hV : ∃ c ∈ V, isWhiteSpace c = false)
    (hdesc : ∀ l ∈ jsLines fm, ¬ "description:".toList <+: l) :
    validateFrontmatter content = Verdict.missingDescription := by
  have hn : test true (hasKeyRe "name") fm = true := by
    apply hasKey_of_line "name" (Or.inl rfl) _ (' ' :: V) (by simp)
    have e : keyChars "name" ++ ' ' :: V = "name: ".toList ++ V := by
      simp [keyChars]
    rw [e]
    exact hname
  have hd : test true (hasKeyRe "description") fm = false := by
    apply not_hasKey_of_no_line "description" (Or.inr rfl)
    have e : keyChars "description" = "description:".toList := by decide
    rw [e]
    exact hdesc
  unfold validateFrontmatter
  rw [hfm]
  simp [hn, hd]

theorem validateFrontmatter_missingDescription_witness :
    validateFrontmatter "---\nname: Alpha\nlicense: MIT\n---\n# Alpha\n".toList
      = Verdict.missingDescription :=
  validateFrontmatter_missingDescription "---\nname: Alpha\nlicense: MIT\n---\n# Alpha\n".toList
    "name: Alpha\nlicense: MIT".toList "Alpha".toList (by decide) (by decide) (by decide)
    (by decide)

/-- C4. The descriptor `---\nname:\ndescription: x\n---` is accepted although the only line
of its header that begins with `name:` has an empty remainder: the `\s*` of the pattern runs
over the line terminator and `.+` then takes the next line. -/
theorem validateFrontmatter_valid_blank_name :
    validateFrontmatter "---\nname:\ndescription: x\n---".toList = Verdict.valid ∧
      frontmatterOf "---\nname:\ndescription: x\n---".toList
        = some "name:\ndescription: x".toList ∧
      hasNonBlankLine "name" "name:\ndescription: x".toList = false := by
  decide

/-- C7, as stated, fails: for `---\nname:\ndescription: x\n---` the first header line that
begins with `name:` has the remainder `""`, and the value returned is `description: x`; for
`---\nname:\n---` the remainder is `""` as well, and the value is absent. -/
theorem firstLineValue_counterexample :
    ¬ FirstLineValue "---\nname:\ndescription: x\n---".toList "name" ∧
      ¬ FirstLineValue "---\nname:\n---".toList "name" := by
  constructor
  · intro h
    have h' := h "name:\ndescription: x".toList (by decide)
    revert h'
    decide
  · intro h
    have h' := h "name:".toList (by decide)
    revert h'
    decide

/-- C7, amended. For a descriptor with a header block and each key k of `name` and
`description`: when the first header line that begins with `k:` has a remainder that is not
blank, the value returned for k is that remainder trimmed; when no header line begins with
`k:`, the value is absent. -/
theorem metadata_first_line (content fm : Str) (key : String)
    (hkey : key = "name" ∨ key = "description")
    (hfm : frontmatterOf content = some fm) :
    (∀ l, (jsLines fm).find? (fun l => decide (keyChars key <+: l)) = some l →
        (∃ c ∈ l.drop (keyChars key).length, isWhiteSpace c = false) →
        (metadataOfContent content).get key = some (trim (l.drop (keyChars key).length))) ∧
      ((∀ l ∈ jsLines fm, ¬ keyChars key <+: l) →
        (metadataOfContent content).get key = none) := by
  have hget : (metadataOfContent content).get key = keyValue key fm := by
    unfold metadataOfContent
    rw [hfm]
    rcases hkey with rfl | rfl <;> simp [Metadata.get, Metadata.name, Metadata.description]
  rw [hget, keyValue_eq]
  constructor
  · intro l hfind hv
    rw [keyExec_first _ (keyChars_no_terminator key hkey) none fm l
      (by simpa [linesFrom, atLineStart] using hfind) hv]
    simp [trim_dropWhile]
  · intro hno
    rw [keyExec_none _ (keyChars_no_terminator key hkey) none fm
      (by simpa [linesFrom, atLineStart] using hno)]
    rfl

theorem metadata_first_line_witness :
    (metadataOfContent "---\ntitle: t\nname:  Alpha \nname: Beta\n---\n".toList).get "name"
      = some "Alpha".toList :=
  (metadata_first_line "---\ntitle: t\nname:  Alpha \nname: Beta\n---\n".toList
    "title: t\nname:  Alpha \nname: Beta".toList "name" (Or.inl rfl) (by decide)).1
    "name:  Alpha ".toList (by decide) (by decide)

theorem jsLines_intercalate (l : Str) (ls : List Str) :
    jsLines (['\n'].intercalate (l :: ls)) = (l :: ls).flatMap jsLines := by
  induction ls generalizing l with
  | nil => simp [intercalate_single]
  | cons y ys ih =>
    rw [intercalate_cons_cons, jsLines_append_terminator _ _ _ (by decide), ih y]
    simp

theorem jsLines_intercalate_ne (ls : List Str) (h : ls ≠ []) :
    jsLines (['\n'].intercalate ls) = ls.flatMap jsLines := by
  cases ls with
  | nil => exact absurd rfl h
  | cons l ls => exact jsLines_intercalate l ls

/-- A line that the predicate rejects does not change the first accepted line. -/
theorem find_insert_line (P : Str → Bool) (before after : List Str) (L : Str)
    (hL : ∀ c ∈ L, isLineTerminator c = false) (hP : P L = false) :
    (jsLines (['\n'].intercalate (before ++ L :: after))).find? P =
      ((before ++ after).flatMap jsLines).find? P := by
  rw [jsLines_intercalate_ne _ (by simp)]
  simp [List.flatMap_append, List.find?_append, jsLines_of_no_terminator L hL,
    List.find?_cons, hP]

/-- The key scan depends only on the first line that begins with the key, as long as that
line has a value that is not blank. -/
theorem keyExec_congr (kc : Str) (hk : ∀ c ∈ kc, isLineTerminator c = false) (r r' : Str)
    (hfind : (jsLines r').find? (fun l => decide (kc <+: l)) =
      (jsLines r).find? (fun l => decide (kc <+: l)))
    (hv : ∀ l, (jsLines r).find? (fun l => decide (kc <+: l)) = some l →
      ∃ c ∈ l.drop kc.length, isWhiteSpace c = false) :
    keyExec kc none r' = keyExec kc none r := by
  cases hf : (jsLines r).find? (fun l => decide (kc <+: l)) with
  | none =>
    rw [hf] at hfind
    rw [keyExec_none kc hk none r (by simpa [linesFrom, atLineStart] using hf),
      keyExec_none kc hk none r' (by simpa [linesFrom, atLineStart] using hfind)]
  | some l =>
    rw [hf] at hfind
    rw [keyExec_first kc hk none r l (by simpa [linesFrom, atLineStart] using hf) (hv l hf),
      keyExec_first kc hk none r' l (by simpa [linesFrom, atLineStart] using hfind) (hv l hf)]

theorem identChar_facts (c : Char) (h : isIdentChar c = true) :
    isLineTerminator c = false ∧ c ≠ ':' ∧ c ≠ '-' ∧ c ≠ '\n' := by
  have h1 : c.toNat ≠ 10 ∧ c.toNat ≠ 13 ∧ c.toNat ≠ 8232 ∧ c.toNat ≠ 8233 ∧ c.toNat ≠ 58 ∧
      c.toNat ≠ 45 := by
    simp only [isIdentChar, Bool.or_eq_true, Bool.and_eq_true, decide_eq_true_eq,
      beq_iff_eq] at h
    omega
  refine ⟨by simp [isLineTerminator, h1], ?_, ?_, ?_⟩
  · rintro rfl; exact h1.2.2.2.2.1 (by decide)
  · rintro rfl; exact h1.2.2.2.2.2 (by decide)
  · rintro rfl; exact h1.1 (by decide)

theorem identifier_chars (key : Str) (h : isIdentifier key = true) :
    key ≠ [] ∧ ∀ c ∈ key, isIdentChar c = true := by
  cases key with
  | nil => simp [isIdentifier] at h
  | cons c cs =>
    simp only [isIdentifier, Bool.and_eq_true, List.all_eq_true] at h
    refine ⟨by simp, fun d hd => ?_⟩
    rcases List.mem_cons.mp hd with rfl | hd'
    · exact h.1.1
    · exact h.2 d hd'

/-- A key followed by a colon is a prefix of another key followed by a colon only when the
keys are equal. -/
theorem key_eq_of_prefix (k key t : Str) (hk : ∀ c ∈ k, c ≠ ':') (hkey : ∀ c ∈ key, c ≠ ':')
    (h : k ++ [':'] <+: key ++ ':' :: t) : k = key := by
  induction k generalizing key with
  | nil =>
    cases key with
    | nil => rfl
    | cons b bs =>
      simp only [List.nil_append, List.cons_append, List.cons_prefix_cons] at h
      exact absurd h.1.symm (hkey b (List.mem_cons_self _ _))
  | cons a as ih =>
    cases key with
    | nil =>
      simp only [List.cons_append, List.nil_append, List.cons_prefix_cons] at h
      exact absurd h.1 (hk a (List.mem_cons_self _ _))
    | cons b bs =>
      simp only [List.cons_append, List.cons_prefix_cons] at h
      rw [h.1, ih bs (fun c hc => hk c (List.mem_cons_of_mem _ hc))
        (fun c hc => hkey c (List.mem_cons_of_mem _ hc)) h.2]

theorem frontmatterOf_descriptor (ls : List Str) (rest : Str)
    (hnl : ∀ x ∈ ls, ∀ c ∈ x, c ≠ '\n') (hmark : ∀ x ∈ ls.tail, ¬ "---".toList <+: x) :
    frontmatterOf (descriptor ls rest) = some (['\n'].intercalate ls) := by
  have e1 : "---\n".toList = openMarker := by decide
  have e2 : "\n---".toList = closeMarker := by decide
  have e3 : "---".toList = ['-', '-', '-'] := by decide
  unfold descriptor
  rw [e1, e2, List.append_assoc, List.append_assoc, frontmatterOf_open, ← List.append_assoc,
    findClose_intercalate ls rest hnl (fun x hx => by simpa [e3] using hmark x hx)]
  rfl

theorem findClose_length_le (acc r cap rest a b : Str)
    (h : findClose acc r = some (cap, rest)) (hr : r = a ++ closeMarker ++ b) :
    cap.length ≤ acc.length + a.length := by
  induction r generalizing acc a with
  | nil => simp [findClose] at h
  | cons c cs ih =>
    rw [findClose] at h
    by_cases hp : closeMarker <+: c :: cs
    · rw [if_pos hp] at h
      simp only [Option.some.injEq, Prod.mk.injEq] at h
      rw [← h.1]
      omega
    · rw [if_neg hp] at h
      cases a with
      | nil =>
        exfalso
        apply hp
        rw [hr]
        simp
      | cons x xs =>
        simp only [List.cons_append, List.cons.injEq] at hr
        have := ih (acc ++ [c]) xs h (by rw [hr.2])
        simp only [List.length_append, List.length_cons, List.length_nil] at this
        simp only [List.length_cons]
        omega

theorem intercalate_append (P Q : List Str) (hP : P ≠ []) (hQ : Q ≠ []) :
    ['\n'].intercalate (P ++ Q) = ['\n'].intercalate P ++ '\n' :: ['\n'].intercalate Q := by
  induction P with
  | nil => exact absurd rfl hP
  | cons p ps ih =>
    cases ps with
    | nil =>
      cases Q with
      | nil => exact absurd rfl hQ
      | cons q qs => simp [intercalate_cons_cons, intercalate_single]
    | cons p2 ps2 =>
      have := ih (by simp)
      rw [List.cons_append, List.cons_append, intercalate_cons_cons, intercalate_cons_cons,
        ← List.cons_append, this]
      simp

/-- When the header block of a descriptor is the whole body, no line of the body after the
first begins with `---`. -/
theorem no_marker_of_header (ls : List Str) (rest : Str)
    (h : frontmatterOf (descriptor ls rest) = some (['\n'].intercalate ls)) :
    ∀ x ∈ ls.tail, ¬ "---".toList <+: x := by
  intro x hx hp
  have e1 : "---\n".toList = openMarker := by decide
  have e2 : "\n---".toList = closeMarker := by decide
  cases ls with
  | nil => simp at hx
  | cons l0 t =>
    simp only [List.tail_cons] at hx
    obtain ⟨A, B, rfl⟩ := List.append_of_mem hx
    obtain ⟨x', rfl⟩ := hp
    unfold descriptor at h
    rw [e1, e2, List.append_assoc, List.append_assoc, frontmatterOf_open] at h
    cases hf : findClose [] (['\n'].intercalate (l0 :: (A ++ ("---".toList ++ x') :: B)) ++
        (closeMarker ++ rest)) with
    | none => rw [hf] at h; simp at h
    | some pr =>
      rw [hf] at h
      simp only [Option.map_some', Option.some.injEq] at h
      have hsplit : ['\n'].intercalate (l0 :: (A ++ ("---".toList ++ x') :: B)) =
          ['\n'].intercalate (l0 :: A) ++ '\n' :: ['\n'].intercalate (("---".toList ++ x') :: B) := by
        rw [← List.cons_append]
        exact intercalate_append _ _ (by simp) (by simp)
      obtain ⟨y, hy⟩ : ∃ y, ['\n'].intercalate (("---".toList ++ x') :: B) =
          ['-', '-', '-'] ++ y := by
        cases B with
        | nil => exact ⟨x', by simp [intercalate_single]⟩
        | cons b bs => exact ⟨x' ++ '\n' :: ['\n'].intercalate (b :: bs), by
            simp [intercalate_cons_cons]⟩
      have hle := findClose_length_le [] _ pr.1 pr.2 (['\n'].intercalate (l0 :: A))
        (y ++ (closeMarker ++ rest)) hf (by
          rw [hsplit, hy]
          simp [closeMarker])
      rw [h, hsplit] at hle
      simp only [List.length_nil, List.length_append, List.length_cons] at hle
      omega

/-- C9, as stated, fails. In `---\n---x\nname: a\ndescription: b\n---` the header body is
`---x\nname: a\ndescription: b`; with `foo: bar` inserted as its first line, the line
`---x` closes the header and the result changes from valid to 'Missing "name"'.  In the
header body `name: a\r---y\rdescription: b` the line `---y` starts after a carriage return;
with `foo: bar` and a newline inserted before it, `---y` closes the header and the result
changes from valid to 'Missing "description"'.  And in `---\nname:\ndescription: x\n---`
the line `foo: bar`, inserted after the first header line, changes the name that is
returned from `description: x` to `foo: bar`. -/
theorem extra_key_counterexample :
    (frontmatterOf (descriptor ["---x".toList, "name: a".toList, "description: b".toList] [])
        = some "---x\nname: a\ndescription: b".toList ∧
      validateFrontmatter
        (descriptor ["---x".toList, "name: a".toList, "description: b".toList] [])
        = Verdict.valid ∧
      validateFrontmatter
        (descriptor ["foo: bar".toList, "---x".toList, "name: a".toList,
          "description: b".toList] [])
        = Verdict.missingName) ∧
    (frontmatterOf "---\nname: a\r---y\rdescription: b\n---".toList
        = some "name: a\r---y\rdescription: b".toList ∧
      validateFrontmatter "---\nname: a\r---y\rdescription: b\n---".toList = Verdict.valid ∧
      validateFrontmatter "---\nname: a\rfoo: bar\n---y\rdescription: b\n---".toList
        = Verdict.missingDescription) ∧
    (metadataOfContent (descriptor ["name:".toList, "description: x".toList] [])
        = Metadata.fields (some "description: x".toList) (some "x".toList) ∧
      metadataOfContent
        (descriptor ["name:".toList, "foo: bar".toList, "description: x".toList] [])
        = Metadata.fields (some "foo: bar".toList) (some "x".toList)) := by
  decide

/-- C9, amended. Lines are the lines of the `m` flag, delimited by LF, CR, U+2028 and
U+2029.  Take a descriptor with a header block in which, for each of `name` and
`description`, the first header line that begins with that key, if there is one, has a
remainder that is not blank.  Take a line `key: value` whose key is an identifier other than
`name` and `description` and whose value is not blank and holds no line terminator.  Insert
it, with a newline as separator, at the start of the header body, at its end, or right after
a newline in it (the body is `before ++ after` joined by newlines, the line goes between
`before` and `after`); at the start only when the body does not begin with `---`.  Then
`validateFrontmatter` returns the same result and `getSkillMetadata` the same object as
without the line. -/
theorem extra_key_ignored (before after : List Str) (rest key value : Str)
    (hne : before ++ after ≠ [])
    (hlines : ∀ l ∈ before ++ after, ∀ c ∈ l, c ≠ '\n')
    (hhdr : frontmatterOf (descriptor (before ++ after) rest)
      = some (['\n'].intercalate (before ++ after)))
    (hfirst : before = [] → ¬ "---".toList <+: ['\n'].intercalate after)
    (hkey : isIdentifier key = true)
    (hk1 : key ≠ "name".toList) (hk2 : key ≠ "description".toList)
    (_hval : ∃ c ∈ value, isWhiteSpace c = false)
    (hvalt : ∀ c ∈ value, isLineTerminator c = false)
    (hname : ∀ l, (jsLines (['\n'].intercalate (before ++ after))).find?
        (fun l => decide ("name:".toList <+: l)) = some l →
      ∃ c ∈ l.drop 5, isWhiteSpace c = false)
    (hdesc : ∀ l, (jsLines (['\n'].intercalate (before ++ after))).find?
        (fun l => decide ("description:".toList <+: l)) = some l →
      ∃ c ∈ l.drop 12, isWhiteSpace c = false) :
    validateFrontmatter (descriptor (before ++ (key ++ ": ".toList ++ value) :: after) rest)
        = validateFrontmatter (descriptor (before ++ after) rest) ∧
      metadataOfContent (descriptor (before ++ (key ++ ": ".toList ++ value) :: after) rest)
        = metadataOfContent (descriptor (before ++ after) rest) := by
  have hmark := no_marker_of_header (before ++ after) rest hhdr
  have hfirst' : before = [] → ∀ l ∈ after.head?, ¬ "---".toList <+: l := by
    intro hb l hl hp
    apply hfirst hb
    cases after with
    | nil => simp at hl
    | cons a as =>
      simp only [List.head?_cons, Option.mem_def, Option.some.injEq] at hl
      subst hl
      cases as with
      | nil => simpa [intercalate_single] using hp
      | cons a2 as2 =>
        rw [intercalate_cons_cons]
        exact hp.trans (List.prefix_append _ _)
  obtain ⟨hkne, hkc⟩ := identifier_chars key hkey
  have e3 : "---".toList = ['-', '-', '-'] := by decide
  have e4 : ": ".toList = [':', ' '] := by decide
  -- the inserted line
  have hLt : ∀ c ∈ key ++ ": ".toList ++ value, isLineTerminator c = false := by
    intro c hc
    rcases List.mem_append.mp hc with h | h
    · rcases List.mem_append.mp h with h | h
      · exact (identChar_facts c (hkc c h)).1
      · exact (show ∀ d ∈ ": ".toList, isLineTerminator d = false by decide) c h
    · exact hvalt c h
  have hLn : ∀ c ∈ key ++ ": ".toList ++ value, c ≠ '\n' := by
    intro c hc h
    have := hLt c hc
    rw [h] at this
    exact absurd this (by decide)
  have hLd : ¬ "---".toList <+: key ++ ": ".toList ++ value := by
    cases key with
    | nil => exact absurd rfl hkne
    | cons a as =>
      have ha := (identChar_facts a (hkc a (List.mem_cons_self _ _))).2.2.1
      simp [e3, List.cons_prefix_cons, Ne.symm ha]
  have hLk : ∀ k : String, k.toList ≠ key → (∀ c ∈ k.toList, c ≠ ':') →
      decide (keyChars k <+: key ++ ": ".toList ++ value) = false := by
    intro k hk hkc'
    rw [decide_eq_false_iff_not]
    intro hp
    apply hk
    apply key_eq_of_prefix k.toList key (' ' :: value) hkc'
      (fun c hc => (identChar_facts c (hkc c hc)).2.1)
    simpa [keyChars, e4] using hp
  -- the two header blocks
  have hfm := frontmatterOf_descriptor (before ++ after) rest hlines hmark
  have hfm' := frontmatterOf_descriptor (before ++ (key ++ ": ".toList ++ value) :: after) rest
    (by
      intro x hx
      rcases List.mem_append.mp hx with h | h
      · exact hlines x (List.mem_append_left _ h)
      · rcases List.mem_cons.mp h with rfl | h
        · exact hLn
        · exact hlines x (List.mem_append_right _ h))
    (by
      intro x hx
      cases before with
      | nil =>
        simp only [List.nil_append, List.tail_cons] at hx
        cases after with
        | nil => simp at hx
        | cons a as =>
          rcases List.mem_cons.mp hx with rfl | h
          · exact hfirst' rfl x (by simp)
          · exact hmark x (by simpa using h)
      | cons b bs =>
        simp only [List.cons_append, List.tail_cons] at hx hmark
        rcases List.mem_append.mp hx with h | h
        · exact hmark x (List.mem_append_left _ h)
        · rcases List.mem_cons.mp h with rfl | h
          · exact hLd
          · exact hmark x (List.mem_append_right _ h))
  -- the two key scans
  have hscan : ∀ k : String, k = "name" ∨ k = "description" →
      (∀ l, (jsLines (['\n'].intercalate (before ++ after))).find?
          (fun l => decide (keyChars k <+: l)) = some l →
        ∃ c ∈ l.drop (keyChars k).length, isWhiteSpace c = false) →
      keyExec (keyChars k) none
          (['\n'].intercalate (before ++ (key ++ ": ".toList ++ value) :: after))
        = keyExec (keyChars k) none (['\n'].intercalate (before ++ after)) := by
    intro k hk hv
    apply keyExec_congr _ (keyChars_no_terminator k hk) _ _ _ hv
    rw [find_insert_line _ before after _ hLt, jsLines_intercalate_ne _ hne]
    apply hLk k
    · rcases hk with rfl | rfl
      · exact fun h => hk1 h.symm
      · exact fun h => hk2 h.symm
    · rcases hk with rfl | rfl <;> decide
  have hn := hscan "name" (Or.inl rfl) hname
  have hd := hscan "description" (Or.inr rfl) hdesc
  unfold validateFrontmatter metadataOfContent
  rw [hfm, hfm']
  simp only [test_hasKeyRe, keyValue_eq, hn, hd, and_self]

theorem extra_key_ignored_witness :
    validateFrontmatter (descriptor
        ["name: Alpha".toList, "license: MIT".toList, "description: Does A things".toList]
        "\n# Alpha\n".toList)
        = validateFrontmatter (descriptor
          ["name: Alpha".toList, "description: Does A things".toList] "\n# Alpha\n".toList) ∧
      metadataOfContent (descriptor
        ["name: Alpha".toList, "license: MIT".toList, "description: Does A things".toList]
        "\n# Alpha\n".toList)
        = metadataOfContent (descriptor
          ["name: Alpha".toList, "description: Does A things".toList] "\n# Alpha\n".toList) :=
  extra_key_ignored ["name: Alpha".toList] ["description: Does A things".toList]
    "\n# Alpha\n".toList "license".toList "MIT".toList (by decide) (by decide) (by decide)
    (by decide) (by decide) (by decide) (by decide) (by decide) (by decide) (by decide)
    (by decide)

/-- C10, as stated, fails: `---\nname: a\ndescription: b\n----` has a header for both
functions, and no line after the first is exactly `---`. -/
theorem closedByMarkerLine_counterexample :
    validateFrontmatter "---\nname: a\ndescription: b\n----".toList ≠ Verdict.missingFrontmatter ∧
      metadataOfContent "---\nname: a\ndescription: b\n----".toList ≠ Metadata.empty ∧
      ¬ ClosedByMarkerLine "---\nname: a\ndescription: b\n----".toList := by
  unfold ClosedByMarkerLine
  decide

/-- C10, amended. `validateFrontmatter` finds a header (does not return 'Missing YAML
frontmatter') or `getSkillMetadata` extracts from a header only if the first line of the
text is exactly `---` and some later line of the text begins with `---`. -/
theorem header_found_only_if (content : Str)
    (h : validateFrontmatter content ≠ Verdict.missingFrontmatter ∨
      metadataOfContent content ≠ Metadata.empty) :
    (jsLines content).head? = some "---".toList ∧
      ∃ l ∈ (jsLines content).tail, "---".toList <+: l := by
  have hfm : frontmatterOf content ≠ none := by
    intro h0
    rcases h with h | h
    · exact h (by unfold validateFrontmatter; rw [h0])
    · exact h (by unfold metadataOfContent; rw [h0])
  rw [frontmatterOf_eq] at hfm
  by_cases hp : openMarker <+: content
  · rw [if_pos hp] at hfm
    cases hf : findClose [] (content.drop 4) with
    | none => rw [hf] at hfm; exact absurd rfl hfm
    | some pr =>
      obtain ⟨body, -, hb⟩ := findClose_some [] _ pr.1 pr.2 hf
      have hc : content = ['-', '-', '-'] ++ '\n' :: (body ++ '\n' :: (['-', '-', '-'] ++ pr.2)) := by
        have h1 := (List.prefix_iff_eq_append.mp hp).symm
        have h2 : openMarker.length = 4 := rfl
        rw [h2, hb] at h1
        rw [h1]
        simp [openMarker, closeMarker]
      have e3 : "---".toList = ['-', '-', '-'] := by decide
      have hd : ∀ c ∈ ['-', '-', '-'], isLineTerminator c = false := by decide
      rw [hc, e3, jsLines_append_terminator _ _ _ (by decide),
        jsLines_append_terminator _ _ _ (by decide), jsLines_of_no_terminator _ hd]
      refine ⟨rfl, lineHead (['-', '-', '-'] ++ pr.2), ?_, ?_⟩
      · rw [jsLines_eq_cons (['-', '-', '-'] ++ pr.2)]
        simp
      · exact (prefix_lineHead _ _ hd).mpr (List.prefix_append _ _)
  · rw [if_neg hp] at hfm
    exact absurd rfl hfm

theorem header_found_only_if_witness :
    (jsLines "---\nname: a\ndescription: b\n----".toList).head? = some "---".toList ∧
      ∃ l ∈ (jsLines "---\nname: a\ndescription: b\n----".toList).tail, "---".toList <+: l :=
  header_found_only_if "---\nname: a\ndescription: b\n----".toList (Or.inl (by decide))

/-- C5. Whenever the validate command fails on a file system (its exit code is not 0: a
bundle directory fails `validateSkill`, there are no bundle directories, or the skills
directory is missing), `main` of build.js ends with exit code 1 and leaves the file system
as it was; in particular `dist` is not removed, not created and not written to. -/
theorem build_main_validation_failure (version : Str) (stringify : Build.Manifest → Str)
    (fs : Fs) (h : (Validate.main fs).exitCode ≠ 0) :
    (Build.main version stringify fs).exitCode = 1 ∧
      (Build.main version stringify fs).finalFs = some fs ∧
      (Build.main version stringify fs).finalFs.map Fs.dist = some fs.dist := by
  unfold Build.main
  rw [if_pos h]
  exact ⟨rfl, rfl, rfl⟩

theorem build_main_validation_failure_witness :
    (Build.main "1.0.0".toList (fun _ => []) exampleFs).exitCode = 1 ∧
      (Build.main "1.0.0".toList (fun _ => []) exampleFs).finalFs = some exampleFs ∧
      (Build.main "1.0.0".toList (fun _ => []) exampleFs).finalFs.map Fs.dist
        = some exampleFs.dist :=
  build_main_validation_failure "1.0.0".toList (fun _ => []) exampleFs (by decide)

/-- C6, as stated, fails: for the bundle `b` of `blankNameFs` validation passes,
`getSkillMetadata` recovers the name `""`, and the manifest entry has the name `b`. -/
theorem manifestAsStated_counterexample :
    ¬ ManifestAsStated "1.0.0".toList (fun _ => []) blankNameFs := by
  intro h
  have h' := h ⟨"dynamodb-toolbox-skill".toList, "1.0.0".toList,
    [⟨"b".toList, "x".toList, "skills/b".toList⟩]⟩ (by rfl)
  have hb : bundleDirs blankNameFs = [("b".toList, .dir [("SKILL.md".toList,
      .file "---\ndescription: x\nname: \n---".toList)])] := by rfl
  rw [hb] at h'
  simp only [List.forall₂_cons, List.forall₂_nil_left_iff, and_true] at h'
  obtain ⟨md, hmd, he⟩ := h'
  have hmd' : Build.getSkillMetadata (.dir [("SKILL.md".toList,
      .file "---\ndescription: x\nname: \n---".toList)])
      = some (Metadata.fields (some []) (some "x".toList)) := by rfl
  rw [hmd'] at hmd
  simp only [Option.some.injEq] at hmd
  subst hmd
  revert he
  decide

theorem validateLoop_exit (l : List (Str × FsNode)) (allValid : Bool) (seen : List Str) :
    (Validate.validateLoop l allValid seen).exitCode = 0 ↔
      allValid = true ∧ ∀ d ∈ l, Validate.validateSkill d.2 = some true := by
  induction l generalizing allValid seen with
  | nil => cases allValid <;> simp [Validate.validateLoop]
  | cons d rest ih =>
    obtain ⟨n, e⟩ := d
    rw [Validate.validateLoop]
    cases hv : Validate.validateSkill e with
    | none => simp [hv]
    | some isValid =>
      simp only [ih, List.mem_cons, forall_eq_or_imp, hv, Option.some.injEq]
      cases isValid <;> simp

theorem validateLoop_exit_code (l : List (Str × FsNode)) (allValid : Bool) (seen : List Str) :
    (Validate.validateLoop l allValid seen).exitCode = 0 ∨
      (Validate.validateLoop l allValid seen).exitCode = 1 := by
  induction l generalizing allValid seen with
  | nil => cases allValid <;> simp [Validate.validateLoop]
  | cons d rest ih =>
    obtain ⟨n, e⟩ := d
    rw [Validate.validateLoop]
    cases hv : Validate.validateSkill e with
    | none => simp
    | some isValid => exact ih _ _

theorem validateLoop_validated (l : List (Str × FsNode)) (allValid : Bool) (seen : List Str)
    (h : ∀ d ∈ l, Validate.validateSkill d.2 ≠ none) :
    (Validate.validateLoop l allValid seen).validated = seen ++ l.map Prod.fst := by
  induction l generalizing allValid seen with
  | nil => simp [Validate.validateLoop]
  | cons d rest ih =>
    obtain ⟨n, e⟩ := d
    rw [Validate.validateLoop]
    cases hv : Validate.validateSkill e with
    | none => exact absurd hv (h (n, e) (List.mem_cons_self _ _))
    | some isValid =>
      simp only
      rw [ih _ _ (fun d hd => h d (List.mem_cons_of_mem _ hd))]
      simp

theorem validate_main_eq (fs : Fs) (h : bundleDirs fs ≠ []) :
    Validate.main fs = Validate.validateLoop (bundleDirs fs) true [] := by
  unfold Validate.main
  cases hs : fs.skills with
  | none => simp [bundleDirs, hs] at h
  | some node =>
    cases node with
    | file c => simp [bundleDirs, hs, FsNode.entries] at h
    | dir es =>
      have hl : ¬ (bundleDirs fs).length = 0 := by
        intro h0; exact h (List.length_eq_zero.mp h0)
      simp [existsSync, readdirSync, hl]

theorem validate_main_empty (fs : Fs) (h : bundleDirs fs = []) :
    (Validate.main fs).exitCode = 1 := by
  unfold Validate.main
  rw [h]
  cases hs : fs.skills with
  | none => simp [existsSync]
  | some node => cases node <;> simp [existsSync, readdirSync]

theorem orElse_name (v : Option Str) (f : Str) :
    Build.orElse v f = (match v with
      | some n => if n = [] then f else n
      | none => f) := by
  rcases v with _ | ⟨_ | ⟨c, cs⟩⟩ <;> simp [Build.orElse]

theorem orElse_empty (v : Option Str) : Build.orElse v [] = v.getD [] := by
  rcases v with _ | ⟨_ | ⟨c, cs⟩⟩ <;> simp [Build.orElse]

theorem manifestSkills_entries (l : List (Str × FsNode)) (es : List Build.SkillEntry)
    (h : Build.manifestSkills l = some es) :
    List.Forall₂ (fun d e => ∃ md, Build.getSkillMetadata d.2 = some md ∧ e = builtEntry d.1 md)
      l es := by
  induction l generalizing es with
  | nil =>
    simp only [Build.manifestSkills, Option.some.injEq] at h
    subst h
    exact List.Forall₂.nil
  | cons d rest ih =>
    obtain ⟨n, e⟩ := d
    rw [Build.manifestSkills] at h
    cases hmd : Build.getSkillMetadata e with
    | none => rw [hmd] at h; simp at h
    | some md =>
      rw [hmd] at h
      cases hr : Build.manifestSkills rest with
      | none => rw [hr] at h; simp at h
      | some entries =>
        rw [hr] at h
        simp only [Option.some.injEq] at h
        subst h
        refine List.Forall₂.cons ⟨md, hmd, ?_⟩ (ih entries hr)
        rw [orElse_empty, orElse_name]
        rfl

theorem main_manifest (version : Str) (stringify : Build.Manifest → Str) (fs : Fs)
    (m : Build.Manifest) (h : (Build.main version stringify fs).manifest = some m) :
    Build.manifestSkills (bundleDirs fs) = some m.skills := by
  unfold Build.main at h
  by_cases hv : (Validate.main fs).exitCode ≠ 0
  · rw [if_pos hv] at h
    simp [Build.Outcome.manifest] at h
  · rw [if_neg hv] at h
    cases hm : Build.manifestSkills (bundleDirs fs) with
    | none =>
      exfalso
      revert h
      simp only [hm]
      repeat' split
      all_goals simp [Build.Outcome.manifest]
    | some entries =>
      revert h
      simp only [hm]
      repeat' split
      all_goals simp [Build.Outcome.manifest]
      intro h
      rw [← h]

theorem lookupEntry_setEntry_ne (m n : Str) (d : FsNode) (ds : List (Str × FsNode))
    (h : m ≠ n) : lookupEntry m (setEntry n d ds) = lookupEntry m ds := by
  induction ds with
  | nil => simp [setEntry, lookupEntry, Ne.symm h]
  | cons x xs ih =>
    obtain ⟨k, e⟩ := x
    rw [setEntry]
    by_cases hk : k = n
    · subst hk
      simp [lookupEntry, Ne.symm h]
    · simp only [hk, if_false, lookupEntry, ih]

mutual
theorem copyRecursive_fresh : ∀ (e : FsNode), e.distinctNames = true →
    (Build.copyRecursive e none).isSome = true
  | .file c, _ => by simp [Build.copyRecursive]
  | .dir es, h => by
    rw [Build.copyRecursive, Option.isSome_map']
    exact copyEntries_fresh es [] (by simpa [FsNode.distinctNames] using h)
      (fun x _ => by simp [lookupEntry])
theorem copyEntries_fresh : ∀ (es ds : List (Str × FsNode)), distinctEntries es = true →
    (∀ x ∈ es, lookupEntry x.1 ds = none) → (Build.copyEntries es ds).isSome = true
  | [], ds, _, _ => by simp [Build.copyEntries]
  | (n, e) :: es, ds, h, hl => by
    rw [distinctEntries, Bool.and_eq_true, Bool.and_eq_true] at h
    obtain ⟨⟨h1, h2⟩, h3⟩ := h
    rw [Build.copyEntries, hl (n, e) (List.mem_cons_self _ _)]
    have hc := copyRecursive_fresh e h2
    cases hd : Build.copyRecursive e none with
    | none => rw [hd] at hc; simp at hc
    | some d =>
      simp only
      apply copyEntries_fresh es _ h3
      intro x hx
      have hne : x.1 ≠ n := by
        have := List.all_eq_true.mp h1 x hx
        simpa using this
      rw [lookupEntry_setEntry_ne _ _ _ _ hne]
      exact hl x (List.mem_cons_of_mem _ hx)
end

theorem getSkillMetadata_of_valid (e : FsNode) (h : Validate.validateSkill e = some true) :
    (Build.getSkillMetadata e).isSome = true := by
  unfold Validate.validateSkill at h
  unfold Build.getSkillMetadata
  cases hr : readFileSync (lookupEntry "SKILL.md".toList e.entries) with
  | none =>
    simp only [hr] at h
    split at h <;> simp at h
  | some content => rfl

theorem manifestSkills_isSome (l : List (Str × FsNode))
    (h : ∀ d ∈ l, Validate.validateSkill d.2 = some true) :
    (Build.manifestSkills l).isSome = true := by
  induction l with
  | nil => rfl
  | cons d rest ih =>
    obtain ⟨n, e⟩ := d
    rw [Build.manifestSkills]
    have h1 := getSkillMetadata_of_valid e (h (n, e) (List.mem_cons_self _ _))
    have h2 := ih (fun d hd => h d (List.mem_cons_of_mem _ hd))
    cases hm : Build.getSkillMetadata e with
    | none => rw [hm] at h1; simp at h1
    | some md =>
      cases hr : Build.manifestSkills rest with
      | none => rw [hr] at h2; simp at h2
      | some es => rfl

/-- After a successful validation of a well-formed file system the build runs to its end. -/
theorem main_done (version : Str) (stringify : Build.Manifest → Str) (fs : Fs)
    (hv : (Validate.main fs).exitCode = 0) (hwf : fs.distinctNames = true) :
    ∃ fs1 m, Build.main version stringify fs = Build.Outcome.done fs1 m := by
  have hb : bundleDirs fs ≠ [] := by
    intro h0
    have := validate_main_empty fs h0
    omega
  have hall : ∀ d ∈ bundleDirs fs, Validate.validateSkill d.2 = some true := by
    rw [validate_main_eq fs hb, validateLoop_exit] at hv
    exact hv.2
  cases hs : fs.skills with
  | none => simp [bundleDirs, hs] at hb
  | some src =>
    cases src with
    | file c => simp [bundleDirs, hs, FsNode.entries] at hb
    | dir es =>
      have hcopy := copyRecursive_fresh (.dir es) (by simpa [Fs.distinctNames, hs] using hwf)
      have hman := manifestSkills_isSome _ hall
      cases hc : Build.copyRecursive (.dir es) none with
      | none => rw [hc] at hcopy; simp at hcopy
      | some copied =>
        cases hm : Build.manifestSkills (bundleDirs fs) with
        | none => rw [hm] at hman; simp at hman
        | some entries =>
          have hclean : mkdirSync (if existsSync fs.dist = true then none else fs.dist)
              = some (.dir []) := by
            cases fs.dist <;> simp [existsSync, mkdirSync]
          unfold Build.main
          rw [if_neg (by simp [hv])]
          simp only [hclean, hs, FsNode.entries, lookupEntry, hc, readdirSync, hm, setEntry]
          simp [writeFileSync]

/-- C6, amended. The `skills` array of the manifest that `main` of build.js builds has
exactly one entry per bundle folder, in directory-listing order, and the entry for folder f
is: name, the name recovered by `getSkillMetadata` when that is a non-empty string and f
otherwise; description, the full recovered description, or the empty string when none was
recovered; path, `skills/` followed by f.  And `main` does build a manifest whenever the
validate command exits with 0 (on a file system whose directories list no name twice). -/
theorem manifest_entries (version : Str) (stringify : Build.Manifest → Str) (fs : Fs) :
    (∀ m, (Build.main version stringify fs).manifest = some m →
      List.Forall₂
        (fun d e => ∃ md, Build.getSkillMetadata d.2 = some md ∧ e = builtEntry d.1 md)
        (bundleDirs fs) m.skills) ∧
    ((Validate.main fs).exitCode = 0 → fs.distinctNames = true →
      ∃ m, (Build.main version stringify fs).manifest = some m ∧
        (Build.main version stringify fs).exitCode = 0) := by
  constructor
  · intro m h
    exact manifestSkills_entries _ _ (main_manifest version stringify fs m h)
  · intro hv hwf
    obtain ⟨fs1, m, hm⟩ := main_done version stringify fs hv hwf
    exact ⟨m, by rw [hm]; rfl, by rw [hm]; rfl⟩

theorem manifest_entries_witness :
    List.Forall₂
        (fun d e => ∃ md, Build.getSkillMetadata d.2 = some md ∧ e = builtEntry d.1 md)
        (bundleDirs blankNameFs) [⟨"b".toList, "x".toList, "skills/b".toList⟩] ∧
      ∃ m, (Build.main "1.0.0".toList (fun _ => []) blankNameFs).manifest = some m ∧
        (Build.main "1.0.0".toList (fun _ => []) blankNameFs).exitCode = 0 :=
  ⟨(manifest_entries "1.0.0".toList (fun _ => []) blankNameFs).1
      ⟨"dynamodb-toolbox-skill".toList, "1.0.0".toList,
        [⟨"b".toList, "x".toList, "skills/b".toList⟩]⟩ (by rfl),
    (manifest_entries "1.0.0".toList (fun _ => []) blankNameFs).2 (by decide) (by decide)⟩

/-- C8, as stated, fails: in `throwingFs` the call of `validateSkill` on `b` throws in
`readFileSync`, the process ends with exit code 1, and `validateSkill` is never run on `c`. -/
theorem runsOnAll_counterexample :
    ¬ RunsOnAll throwingFs ∧ Validate.validateSkill (.dir [("SKILL.md".toList, .dir [])]) = none ∧
      (Validate.main throwingFs).validated = ["a".toList, "b".toList] := by
  refine ⟨?_, by rfl, by rfl⟩
  intro h
  have h' := h (by
    intro h0
    have := congrArg List.length h0
    revert this
    decide)
  revert h'
  decide

/-- C8, amended. Given that the skills directory exists, `main` of validate.js exits with
code 0 if and only if the list of immediate subdirectories is non-empty and `validateSkill`
returns true for every one of them; in every other case it exits with code 1; and when the
list is non-empty and no call of `validateSkill` throws, `validateSkill` is run on every
subdirectory, also after an earlier one has returned false. -/
theorem validate_main_exit (fs : Fs) (_hdir : existsSync fs.skills = true) :
    ((Validate.main fs).exitCode = 0 ↔
        bundleDirs fs ≠ [] ∧ ∀ d ∈ bundleDirs fs, Validate.validateSkill d.2 = some true) ∧
      ((Validate.main fs).exitCode = 0 ∨ (Validate.main fs).exitCode = 1) ∧
      (bundleDirs fs ≠ [] → (∀ d ∈ bundleDirs fs, Validate.validateSkill d.2 ≠ none) →
        (Validate.main fs).validated = (bundleDirs fs).map Prod.fst) := by
  by_cases hb : bundleDirs fs = []
  · have h1 := validate_main_empty fs hb
    refine ⟨?_, Or.inr h1, fun h => absurd hb h⟩
    rw [h1]
    simp [hb]
  · rw [validate_main_eq fs hb]
    refine ⟨?_, validateLoop_exit_code _ _ _, fun _ hn => ?_⟩
    · rw [validateLoop_exit]
      simp [hb]
    · rw [validateLoop_validated _ _ _ hn]
      simp

theorem validate_main_exit_witness :
    ((Validate.main exampleFs).exitCode = 0 ↔
        bundleDirs exampleFs ≠ [] ∧
          ∀ d ∈ bundleDirs exampleFs, Validate.validateSkill d.2 = some true) ∧
      ((Validate.main exampleFs).exitCode = 0 ∨ (Validate.main exampleFs).exitCode = 1) ∧
      (bundleDirs exampleFs ≠ [] →
        (∀ d ∈ bundleDirs exampleFs, Validate.validateSkill d.2 ≠ none) →
        (Validate.main exampleFs).validated = (bundleDirs exampleFs).map Prod.fst) :=
  validate_main_exit exampleFs (by rfl)

end SkillPkg
